import Mathlib

/-!
# Verification of the maze-runner game engine

Shallow embedding of the two source files of the repository:

* `App`  — `src/app.py` (the Streamlit maze runner: maze generation,
  level parameters, entity placement, turn engine, session handling).
* `Vibe` — `src/play_game_vibecoding.py` (the variant gold-hunt game).

Python's ambient random number generator is modelled as an explicit
stream of natural numbers (`RNG`): each primitive draw consumes the next
element of the stream.  Every outcome the Python functions `randrange`,
`randint`, `choice` and `shuffle` can produce corresponds to some stream,
and every stream produces an outcome those functions can produce, so
properties quantified over all streams are faithful to the program.

Grids are `List (List Char)` exactly as in the source (`'#'` wall,
`' '` floor, `'G'` gold).  Positions are `Int × Int` (Python ints).
All indexing in the source is guarded so that indices are non-negative
and in range before any access; `cellAt`/`setCell` below default to
wall / no-op outside that guarded region, which is never exercised.
Loops that the source runs unboundedly (`while stack`, `while True`)
are given explicit fuel; for the carve loop we prove the chosen fuel
always suffices, and `init_level`'s loop genuinely has no bound in the
source (see the claim about termination).
-/

namespace Game

/-- A stream of random naturals together with a read position: the
ambient Python RNG.  `seq` is the infinite stream, `pos` the next
index to be consumed. -/
structure RNG where
  seq : Nat → Nat
  pos : Nat

/-- Consume one draw from the stream. -/
def RNG.next (r : RNG) : Nat × RNG := (r.seq r.pos, ⟨r.seq, r.pos + 1⟩)

/-- `random.choice(l)`: raises on an empty list, otherwise picks an
arbitrary element (index = draw mod length). -/
def rchoice {α : Type} (r : RNG) (l : List α) : Option (α × RNG) :=
  match l with
  | [] => none
  | a :: _ =>
    let (k, r1) := r.next
    some (l.getD (k % l.length) a, r1)

/-- One step of `random.shuffle`, extraction-style: pick an arbitrary
remaining element, place it next.  Any permutation of the input is
realizable by a suitable stream, and each stream yields a permutation,
so this models `random.shuffle`'s uniformly random permutation. -/
def rshuffleF {α : Type} : Nat → RNG → List α → List α × RNG
  | _, r, [] => ([], r)
  | 0, r, l => (l, r)
  | n + 1, r, a :: tl =>
    let l := a :: tl
    let (k, r1) := r.next
    let i := k % l.length
    let y := l.getD i a
    let rest := l.eraseIdx i
    let (res, r2) := rshuffleF n r1 rest
    (y :: res, r2)

/-- `random.shuffle(l)` (returning the permuted list rather than
mutating in place). -/
def rshuffle {α : Type} (r : RNG) (l : List α) : List α × RNG :=
  rshuffleF l.length r l

/-- `randint(3, 5)` from `compute_level_params`. -/
def randint35 (r : RNG) : Nat × RNG :=
  let (k, r1) := r.next
  (3 + k % 3, r1)

/-- A maze: list of rows of characters, as in the source. -/
abbrev Maze := List (List Char)

/-- An integer grid position `(x, y)`. -/
abbrev Pos := Int × Int

/-- `clamp(v, a, b)` from `src/app.py`. -/
def clamp (v a b : Int) : Int := max a (min b v)

/-- `neighbors4(x, y)` from `src/app.py`. -/
def neighbors4 (x y : Int) : List Pos :=
  [(x + 1, y), (x - 1, y), (x, y + 1), (x, y - 1)]

/-- `is_inside(maze, x, y)` from `src/app.py`:
`0 <= y < len(maze) and 0 <= x < len(maze[0])`. -/
def is_inside (m : Maze) (x y : Int) : Bool :=
  0 ≤ y && y < (m.length : Int) && 0 ≤ x && x < ((m.headD []).length : Int)

/-- `maze[y][x]`.  The source only ever reads guarded, in-range,
non-negative indices; out of that region we return `'#'`. -/
def cellAt (m : Maze) (x y : Int) : Char :=
  if 0 ≤ x && 0 ≤ y then (m.getD y.toNat []).getD x.toNat '#' else '#'

/-- `maze[y][x] = c`.  The source only ever writes guarded, in-range,
non-negative indices; out of that region this is a no-op. -/
def setCell (m : Maze) (x y : Int) (c : Char) : Maze :=
  if 0 ≤ x && 0 ≤ y then m.set y.toNat ((m.getD y.toNat []).set x.toNat c) else m

/-- `is_floor(maze, x, y)` from `src/app.py`. -/
def is_floor (m : Maze) (x y : Int) : Bool :=
  is_inside m x y && cellAt m x y != '#'

/-- `find_all_floor(maze)` from `src/app.py`: all `(x, y)` with
`maze[y][x] != '#'`, in row-major order. -/
def find_all_floor (m : Maze) : List Pos :=
  (List.range m.length).flatMap fun y =>
    (List.range (m.headD []).length).filterMap fun x =>
      if (m.getD y []).getD x '#' != '#' then some ((x : Int), (y : Int)) else none

/-- `manhattan(a, b)` from `src/app.py` (always non-negative). -/
def manhattan (a b : Pos) : Nat :=
  (a.1 - b.1).natAbs + (a.2 - b.2).natAbs

/-- `ensure_odd(n)` from `src/app.py`:
`n if n % 2 == 1 else n - 1 if n > 1 else 1`. -/
def ensure_odd (n : Nat) : Nat :=
  if n % 2 = 1 then n else if n > 1 then n - 1 else 1

/-- `count_gold(maze)` from `src/app.py`. -/
def count_gold (m : Maze) : Nat :=
  (m.map fun row => row.countP (fun ch => ch == 'G')).sum

/-- Number of wall cells actually stored in the grid (termination
measure for the carve loop). -/
def wallCount (m : Maze) : Nat :=
  (m.map fun row => row.countP (fun ch => ch == '#')).sum

end Game

namespace App

open Game

/-- `randrange(1, w, 2)`: an arbitrary element of `{1, 3, ...} ∩ [1, w)`;
raises (`none`) when that range is empty (`w ≤ 1`).  The range has
`w / 2` elements. -/
def randrange_odd (r : RNG) (w : Nat) : Option (Int × RNG) :=
  if w / 2 = 0 then none
  else
    let (k, r1) := r.next
    some (((1 + 2 * (k % (w / 2)) : Nat) : Int), r1)

/-- The candidate list built in the carve loop of `make_maze`
(`src/app.py` lines 97–101): unvisited cells two steps away, inside the
interior margin, paired with the half-offset `(dx // 2, dy // 2)`. -/
def carve_nbrs (m : Maze) (w h : Nat) (x y : Int) : List (Pos × Pos) :=
  [((2 : Int), (0 : Int)), (-2, 0), (0, 2), (0, -2)].filterMap fun d =>
    let nx := x + d.1
    let ny := y + d.2
    if 1 ≤ nx && nx < (w : Int) - 1 && 1 ≤ ny && ny < (h : Int) - 1
        && cellAt m nx ny == '#' then
      some ((nx, ny), (d.1 / 2, d.2 / 2))
    else none

/-- The `while stack:` loop of `make_maze` (`src/app.py` lines 95–108),
with explicit fuel.  The head of the list is the top of the stack
(Python appends/pops at the end).  `App.carve_fuel_sufficient` below
shows the fuel chosen in `make_maze` always suffices. -/
def carve_loop (w h : Nat) : Nat → RNG → Maze → List Pos → Option (Maze × RNG)
  | 0, _, _, _ => none
  | _ + 1, r, m, [] => some (m, r)
  | fuel + 1, r, m, (x, y) :: rest =>
    match carve_nbrs m w h x y with
    | [] => carve_loop w h fuel r m rest
    | nb :: nbs =>
      let L := nb :: nbs
      let (k, r1) := r.next
      let c := L.getD (k % L.length) nb
      let m1 := setCell m (x + c.2.1) (y + c.2.2) ' '
      let m2 := setCell m1 c.1.1 c.1.2 ' '
      carve_loop w h fuel r1 m2 (c.1 :: (x, y) :: rest)

/-- `make_maze(w, h)` from `src/app.py`.  `none` exactly when
`randrange(1, w, 2)` or `randrange(1, h, 2)` has an empty range
(post-coercion dimension `≤ 1`, i.e. requested dimension `< 3`);
the carve-loop fuel `2 * w * h + 2` is proven sufficient. -/
def make_maze (r : RNG) (w0 h0 : Nat) : Option (Maze × RNG) :=
  let w := ensure_odd w0
  let h := ensure_odd h0
  let m0 : Maze := List.replicate h (List.replicate w '#')
  match randrange_odd r w with
  | none => none
  | some (sx, r1) =>
    match randrange_odd r1 h with
    | none => none
    | some (sy, r2) =>
      let m1 := setCell m0 sx sy ' '
      carve_loop w h (2 * (w * h) + 2) r2 m1 [(sx, sy)]

/-- `move_if_possible(maze, px, py, dx, dy, speed)` from `src/app.py`:
the walk loop, one cell per iteration, stopping at walls/boundary,
collecting gold (`'G'` cells become `' '`).  Returns
`(nx, ny, gold, maze)`. -/
def mip_go (dx dy : Int) : Nat → Maze → Int → Int → Int → Int × Int × Int × Maze
  | 0, m, nx, ny, gold => (nx, ny, gold, m)
  | steps + 1, m, nx, ny, gold =>
    let tx := nx + dx
    let ty := ny + dy
    if !is_inside m tx ty || cellAt m tx ty == '#' then (nx, ny, gold, m)
    else if cellAt m tx ty == 'G' then
      mip_go dx dy steps (setCell m tx ty ' ') tx ty (gold + 1)
    else
      mip_go dx dy steps m tx ty gold

/-- `move_if_possible` from `src/app.py` (lines 112–128). -/
def move_if_possible (m : Maze) (px py dx dy speed : Int) : Int × Int × Int × Maze :=
  mip_go dx dy (clamp speed 1 10).toNat m px py 0

/-- `compute_level_params(level)` from `src/app.py`.  The `steps`
component draws `level - 1` values with `randint(3, 5)`; Python's
`max(40, 150 - sum)` is computed in `Int`.  Sessions only use
`level ≥ 1`; `level - 1` is the (then agreeing) truncated subtraction. -/
structure LevelParams where
  w : Nat
  h : Nat
  steps : Int
  gold_needed : Int
  gold_total : Nat
  monster_count : Nat
  deriving Repr, DecidableEq

/-- The `sum(randint(3, 5) for _ in range(n))` draw in
`compute_level_params`. -/
def sum_randints : Nat → RNG → Nat × RNG
  | 0, r => (0, r)
  | n + 1, r =>
    let (k, r1) := randint35 r
    let (s, r2) := sum_randints n r1
    (k + s, r2)

def compute_level_params (r : RNG) (level : Nat) : LevelParams × RNG :=
  let inc := (level - 1) / 3 * 2
  let w := ensure_odd (19 + inc)
  let h := ensure_odd (11 + inc)
  let (s, r1) := sum_randints (level - 1) r
  let steps : Int := max 40 (150 - (s : Int))
  let gold_needed : Int := 3 + ((level : Int) - 1)
  let gold_total : Nat := gold_needed.toNat + 2 + level / 5
  let monster_count : Nat :=
    if level ≤ 2 then 0 else if level ≤ 7 then 1 else if level ≤ 14 then 2 else 3
  ({ w := w, h := h, steps := steps, gold_needed := gold_needed,
     gold_total := gold_total, monster_count := monster_count }, r1)

/-- The dict returned by `init_level` in `src/app.py`. -/
structure LevelData where
  maze : Maze
  px : Int
  py : Int
  steps_left : Int
  gold_needed : Int
  gold_collected : Int
  exit_xy : Pos
  monsters : List Pos
  deriving Repr, DecidableEq

/-- `maze[gy][gx] = "G"` for each gold position (lines 192–193). -/
def mark_gold : Maze → List Pos → Maze
  | m, [] => m
  | m, g :: rest => mark_gold (setCell m g.1 g.2 'G') rest

/-- The `while True:` body of `init_level` (`src/app.py` lines 178–213),
with fuel counting attempts.  The source has no retry cap: `attempt` is
incremented but never read, so no amount of fuel is guaranteed to
suffice for every stream.  `none` means the fuel ran out (or an
unreachable `choice`/`make_maze` error). -/
def init_loop (params : LevelParams) : Nat → RNG → Option (LevelData × RNG)
  | 0, _ => none
  | fuel + 1, r =>
    match make_maze r params.w params.h with
    | none => none
    | some (maze, r1) =>
      let floors := find_all_floor maze
      if floors.length < 5 then init_loop params fuel r1
      else
        match rchoice r1 floors with
        | none => none
        | some (start, r2) =>
          match rchoice r2 floors with
          | none => none
          | some (exit_cell, r3) =>
            if manhattan start exit_cell < params.w / 2 then init_loop params fuel r3
            else
              let available := floors.filter fun c => c != start && c != exit_cell
              let (avail_sh, r4) := rshuffle r3 available
              let gold_positions := avail_sh.take params.gold_total
              let maze1 := mark_gold maze gold_positions
              let available_m := avail_sh.filter fun c => !gold_positions.contains c
              let (availm_sh, r5) := rshuffle r4 available_m
              let monster_positions := availm_sh.take params.monster_count
              let maze2 := setCell maze1 exit_cell.1 exit_cell.2 ' '
              some ({ maze := maze2, px := start.1, py := start.2,
                      steps_left := params.steps,
                      gold_needed := params.gold_needed, gold_collected := 0,
                      exit_xy := exit_cell, monsters := monster_positions }, r5)

/-- `init_level(level)` from `src/app.py` (lines 171–213):
`compute_level_params` once, then the rejection-sampling loop. -/
def init_level (fuel : Nat) (r : RNG) (level : Nat) : Option (LevelData × RNG) :=
  let (params, r0) := compute_level_params r level
  init_loop params fuel r0

/-- One monster's move (`src/app.py` lines 260–272): the candidate list
of adjacent floor cells not in `occupied`, one `choice` draw if
non-empty, else stay. -/
def monster_step_one (m : Maze) (occupied : List Pos) (mx my : Int) (r : RNG) :
    Pos × RNG :=
  let choices := [((0 : Int), (1 : Int)), (0, -1), (1, 0), (-1, 0)].filterMap fun d =>
    let nx := mx + d.1
    let ny := my + d.2
    if is_inside m nx ny && cellAt m nx ny != '#' && !occupied.contains (nx, ny) then
      some (nx, ny)
    else none
  match choices with
  | [] => ((mx, my), r)
  | c :: _ =>
    let (k, r1) := r.next
    (choices.getD (k % choices.length) c, r1)

/-- The `for i in order:` loop of `step_monsters`.  `occupied` is the
Python set of current monster positions, modelled as a list (monster
positions are pairwise distinct in every reachable state):
`discard`/`add` become `erase`/cons. -/
def sm_go (m : Maze) (px py : Int) (monsters : List Pos) :
    List Nat → List Pos → List Pos → Int → RNG → (List Pos × Int) × RNG
  | [], _, acc, pen, r => ((acc, pen), r)
  | i :: rest, occ, acc, pen, r =>
    let mp := monsters.getD i (0, 0)
    let (np, r1) := monster_step_one m occ mp.1 mp.2 r
    let occ1 := np :: occ.erase mp
    let pen1 := if np = (px, py) then pen - 1 else pen
    sm_go m px py monsters rest occ1 (acc ++ [np]) pen1 r1

/-- `step_monsters(maze, monsters, px, py)` from `src/app.py`
(lines 249–276): shuffle the processing order, move each monster,
accumulate the player-collision penalty. -/
def step_monsters (m : Maze) (monsters : List Pos) (px py : Int) (r : RNG) :
    (List Pos × Int) × RNG :=
  let (order, r1) := rshuffle r (List.range monsters.length)
  sm_go m px py monsters order monsters [] 0 r1

/-- The session state of `src/app.py` (`st.session_state`): the current
level's data plus `level`, `win_all`, `game_over`.  Presentation-only
keys (`auto_run`, `last_dir`, `speed`, `cell_px`, …) are omitted. -/
structure GameState where
  maze : Maze
  px : Int
  py : Int
  steps_left : Int
  gold_needed : Int
  gold_collected : Int
  exit_xy : Pos
  monsters : List Pos
  level : Nat
  win_all : Bool
  game_over : Bool
  deriving Repr, DecidableEq

/-- `load_level(level)` from `src/app.py` (lines 280–293): replace the
level data, clear `game_over`.  It does *not* touch `level` (callers
set it) nor `win_all`. -/
def load_level (fuel : Nat) (r : RNG) (st : GameState) (level : Nat) :
    Option (GameState × RNG) :=
  match init_level fuel r level with
  | none => none
  | some (d, r1) =>
    some ({ st with
            maze := d.maze
            px := d.px
            py := d.py
            steps_left := d.steps_left
            gold_needed := d.gold_needed
            gold_collected := d.gold_collected
            exit_xy := d.exit_xy
            monsters := d.monsters
            game_over := false }, r1)

/-- The "Restart Game (Level 1)" sidebar button (lines 363–366) and the
"Play Again" button on the win screen (lines 515–518): both run
`st.session_state["level"] = 1; load_level(1)`. -/
def restart_game (fuel : Nat) (r : RNG) (st : GameState) : Option (GameState × RNG) :=
  load_level fuel r { st with level := 1 } 1

/-- Movement phase of `process_move` (`src/app.py` lines 378–385):
speed clamped to `[1, 5]`, `move_if_possible`, position/gold update,
step cost `abs(nx - px) + abs(ny - py) or 1`, floored at 0. -/
def pm_move (speed dx dy : Int) (st : GameState) : GameState :=
  let sp := clamp speed 1 5
  let res := move_if_possible st.maze st.px st.py dx dy sp
  let nx := res.1
  let ny := res.2.1
  let gold := res.2.2.1
  let m1 := res.2.2.2
  let d : Nat := (nx - st.px).natAbs + (ny - st.py).natAbs
  let cost : Int := if d = 0 then 1 else (d : Nat)
  { st with
    maze := m1
    px := nx
    py := ny
    gold_collected := max 0 (st.gold_collected + gold)
    steps_left := max 0 (st.steps_left - cost) }

/-- Monster phase of `process_move` (lines 386–390). -/
def pm_monsters (r : RNG) (st : GameState) : GameState × RNG :=
  let res := step_monsters st.maze st.monsters st.px st.py r
  let ms := res.1.1
  let pen := res.1.2
  let st1 := { st with monsters := ms }
  (if pen < 0 then { st1 with gold_collected := max 0 (st1.gold_collected + pen) }
   else st1, res.2)

/-- Gold pickup on the current cell (lines 393–396). -/
def pm_pickup (st : GameState) : GameState :=
  if cellAt st.maze st.px st.py == 'G' then
    { st with
      gold_collected := st.gold_collected + 1
      maze := setCell st.maze st.px st.py ' ' }
  else st

/-- Win / level-advance check (lines 397–406). -/
def pm_win (fuel : Nat) (r : RNG) (st : GameState) : Option (GameState × RNG) :=
  if (st.px, st.py) = st.exit_xy ∧ st.gold_needed ≤ st.gold_collected then
    if 20 ≤ st.level then some ({ st with win_all := true, game_over := true }, r)
    else load_level fuel r { st with level := st.level + 1 } (st.level + 1)
  else some (st, r)

/-- Steps-exhausted check (lines 407–413); `oldExit` is the `ex, ey`
read at line 398, before any level advance. -/
def pm_steps_check (oldExit : Pos) (st : GameState) : GameState :=
  if st.steps_left ≤ 0 then
    if st.gold_needed ≤ st.gold_collected ∧ (st.px, st.py) = oldExit then st
    else { st with game_over := true }
  else st

/-- `process_move(dx, dy)` from `src/app.py` (lines 375–413), composed
of the phases above in source order.  `fuel` bounds the placement loop
of a possible level advance; `none` only on its exhaustion. -/
def process_move (fuel : Nat) (r : RNG) (dx dy speed : Int) (st : GameState) :
    Option (GameState × RNG) :=
  if st.game_over then some (st, r)
  else
    let ex := st.exit_xy
    let st1 := pm_move speed dx dy st
    let (st2, r1) := pm_monsters r st1
    let st3 := pm_pickup st2
    match pm_win fuel r1 st3 with
    | none => none
    | some (st4, r2) => some (pm_steps_check ex st4, r2)

/-- One queued player intent: a direction, the speed slider value, the
ambient RNG as of that turn, and placement fuel for a level advance. -/
structure MoveCmd where
  dx : Int
  dy : Int
  speed : Int
  rng : RNG
  fuel : Nat

/-- A sequence of turns driven through `process_move`. -/
def run_moves : List MoveCmd → GameState → Option GameState
  | [], st => some st
  | c :: cs, st =>
    match process_move c.fuel c.rng c.dx c.dy c.speed st with
    | none => none
    | some (st1, _) => run_moves cs st1

end App

namespace Vibe

open Game

/-- `in_bounds(x, y, w, h)` from `src/play_game_vibecoding.py`. -/
def in_bounds (x y : Int) (w h : Nat) : Bool :=
  0 ≤ x && x < (w : Int) && 0 ≤ y && y < (h : Int)

/-- `neighbors_cells(x, y)` from `src/play_game_vibecoding.py`. -/
def neighbors_cells (x y : Int) : List Pos :=
  [(x, y - 2), (x, y + 2), (x - 2, y), (x + 2, y)]

/-- One iteration of `carve_passage`'s `while stack:` loop
(`src/play_game_vibecoding.py` lines 36–51): mark the top floor,
shuffle its jump neighbors, open the first unvisited one (wall between
included) and push it, else pop.  Fuel as in `App.carve_loop`. -/
def carve_loop (w h : Nat) : Nat → RNG → Maze → List Pos → Option (Maze × RNG)
  | 0, _, _, _ => none
  | _ + 1, r, m, [] => some (m, r)
  | fuel + 1, r, m, (x, y) :: rest =>
    let m0 := setCell m x y ' '
    let (nbrs, r1) := rshuffle r (neighbors_cells x y)
    match nbrs.find? (fun n => in_bounds n.1 n.2 w h && cellAt m0 n.1 n.2 == '#') with
    | some n =>
      let m1 := setCell m0 ((x + n.1) / 2) ((y + n.2) / 2) ' '
      let m2 := setCell m1 n.1 n.2 ' '
      carve_loop w h fuel r1 m2 (n :: (x, y) :: rest)
    | none => carve_loop w h fuel r1 m0 rest

/-- `make_maze(w, h)` from `src/play_game_vibecoding.py` (lines 53–59):
even dimensions are reduced by one, the grid is all wall, and
`carve_passage(m, (1, 1))` runs.  Fuel is proven sufficient for
dimensions ≥ 3. -/
def make_maze (r : RNG) (w0 h0 : Nat) : Option (Maze × RNG) :=
  let w := if w0 % 2 = 0 then w0 - 1 else w0
  let h := if h0 % 2 = 0 then h0 - 1 else h0
  let m : Maze := List.replicate h (List.replicate w '#')
  carve_loop w h (2 * (w * h) + 2) r m [(1, 1)]

/-- `move_if_possible(maze, px, py, dx, dy)` from
`src/play_game_vibecoding.py` (lines 82–93). -/
def move_if_possible (m : Maze) (px py dx dy : Int) : Int × Int × Int × Maze :=
  let nx := px + dx
  let ny := py + dy
  let w := (m.headD []).length
  let h := m.length
  if !in_bounds nx ny w h then (px, py, 0, m)
  else if cellAt m nx ny == '#' then (px, py, 0, m)
  else if cellAt m nx ny == 'G' then (nx, ny, 10, setCell m nx ny ' ')
  else (nx, ny, 0, m)

/-- The session state of `src/play_game_vibecoding.py`. -/
structure VState where
  maze : Maze
  px : Int
  py : Int
  score : Int
  steps_left : Int
  game_over : Bool
  win : Bool
  deriving Repr, DecidableEq

/-- `do_move(dx, dy)` from `src/play_game_vibecoding.py`
(lines 222–242): position/score/steps update only when the position
changed — a fully blocked attempt costs nothing — then the end checks. -/
def do_move (dx dy : Int) (st : VState) : VState :=
  if st.game_over then st
  else
    let res := move_if_possible st.maze st.px st.py dx dy
    let nx := res.1
    let ny := res.2.1
    let gain := res.2.2.1
    let m1 := res.2.2.2
    let st1 :=
      if (nx, ny) ≠ (st.px, st.py) then
        { st with
          maze := m1
          px := nx
          py := ny
          score := st.score + gain
          steps_left := st.steps_left - 1 }
      else { st with maze := m1 }
    if count_gold st1.maze = 0 then { st1 with game_over := true, win := true }
    else if st1.steps_left ≤ 0 then { st1 with game_over := true, win := false }
    else st1

end Vibe

namespace Game

/-! ## Specification predicates

The notions the claims quantify over: floor cells, orthogonal
adjacency, walks through floor cells, connectivity, uniqueness of
simple (duplicate-free) paths, the odd-coordinate cell lattice and the
outer border. -/

/-- `p` is a passable (Floor or Gold) cell of the grid. -/
def floorAt (m : Maze) (p : Pos) : Prop := is_floor m p.1 p.2 = true

instance (m : Maze) (p : Pos) : Decidable (floorAt m p) := by
  unfold floorAt; infer_instance

/-- Orthogonal adjacency of grid positions. -/
def adjPos (p q : Pos) : Prop :=
  (p.1 - q.1).natAbs + (p.2 - q.2).natAbs = 1

instance (p q : Pos) : Decidable (adjPos p q) := by
  unfold adjPos; infer_instance

/-- A walk through floor cells of `m` from `p` to `q` visiting exactly
the cells of `l` in order (orthogonal steps, all passable). -/
inductive Walk (m : Maze) : Pos → Pos → List Pos → Prop
  | single (p : Pos) : floorAt m p → Walk m p p [p]
  | cons (p q r : Pos) (l : List Pos) :
      floorAt m p → adjPos p q → Walk m q r l → Walk m p r (p :: l)

/-- Between any two cells there is at most one simple (duplicate-free)
path: the grid's floor graph is acyclic. -/
def UniquePath (m : Maze) : Prop :=
  ∀ p q l₁ l₂, Walk m p q l₁ → l₁.Nodup → Walk m p q l₂ → l₂.Nodup → l₁ = l₂

/-- Every floor cell is reachable from `s` through floor cells. -/
def ConnFrom (m : Maze) (s : Pos) : Prop :=
  ∀ p, floorAt m p → ∃ l, Walk m s p l

/-- A cell of the odd-coordinate lattice of a `w × h` maze: both
coordinates odd, inside the carving margin. -/
def OddCell (w h : Nat) (p : Pos) : Prop :=
  p.1 % 2 = 1 ∧ p.2 % 2 = 1 ∧ 1 ≤ p.1 ∧ p.1 ≤ (w : Int) - 2 ∧
    1 ≤ p.2 ∧ p.2 ≤ (h : Int) - 2

instance (w h : Nat) (p : Pos) : Decidable (OddCell w h p) := by
  unfold OddCell; infer_instance

/-- The position lies in the carving interior and is not an
even-even lattice point (floor cells always satisfy this). -/
def InteriorCell (w h : Nat) (p : Pos) : Prop :=
  1 ≤ p.1 ∧ p.1 ≤ (w : Int) - 2 ∧ 1 ≤ p.2 ∧ p.2 ≤ (h : Int) - 2 ∧
    ¬(p.1 % 2 = 0 ∧ p.2 % 2 = 0)

/-- The grid is a rectangular `w × h` array. -/
def Rect (m : Maze) (w h : Nat) : Prop :=
  m.length = h ∧ ∀ row ∈ m, row.length = w

/-- `p` lies on the outer border of a `w × h` grid. -/
def OnBorder (w h : Nat) (p : Pos) : Prop :=
  p.1 = 0 ∨ p.1 = (w : Int) - 1 ∨ p.2 = 0 ∨ p.2 = (h : Int) - 1

/-- Every border cell of the grid is a wall. -/
def BorderWalls (m : Maze) (w h : Nat) : Prop :=
  ∀ p : Pos, 0 ≤ p.1 → p.1 < (w : Int) → 0 ≤ p.2 → p.2 < (h : Int) →
    OnBorder w h p → cellAt m p.1 p.2 = '#'

/-- The loop invariant of the depth-first carve loops: the grid is
rectangular, its cells are wall or floor, floors lie in the interior
off the even-even sublattice, the start is a floor lattice cell, every
odd lattice cell that is still wall is surrounded by walls, floors are
connected to the start, simple paths are unique, stack entries are
floor lattice cells, and every floor lattice cell off the stack has
already opened all its in-range lattice neighbours. -/
structure CarveInv (w h : Nat) (s : Pos) (m : Maze) (stack : List Pos) : Prop where
  rect : Rect m w h
  chars : ∀ x y : Int, cellAt m x y = '#' ∨ cellAt m x y = ' '
  start_cell : OddCell w h s
  start_floor : floorAt m s
  floor_int : ∀ p, floorAt m p → InteriorCell w h p
  wall_iso : ∀ p, OddCell w h p → ¬floorAt m p → ∀ q, adjPos p q → ¬floorAt m q
  conn : ConnFrom m s
  uniq : UniquePath m
  stack_ok : ∀ p ∈ stack, OddCell w h p ∧ floorAt m p
  done_ok : ∀ p, OddCell w h p → floorAt m p → p ∉ stack →
    ∀ q, OddCell w h q → manhattan p q = 2 → (q.1 = p.1 ∨ q.2 = p.2) → floorAt m q

/-- Two RNG states are stream-equivalent when they will produce the
same draws from now on: the functions consume only `seq (pos + i)`. -/
def SL (r r2 : RNG) : Prop := ∀ i, r.seq (r.pos + i) = r2.seq (r2.pos + i)

/-- Relates the results of an RNG-consuming partial function run on two
stream-equivalent states: same failure, or same value with
stream-equivalent leftover states. -/
def ORel {α : Type} : Option (α × RNG) → Option (α × RNG) → Prop
  | none, none => True
  | some p, some q => p.1 = q.1 ∧ SL p.2 q.2
  | _, _ => False

/-- The constant-zero stream from position 0. -/
def c0 : RNG := ⟨fun _ => 0, 0⟩

/-- The constant-one stream from position 0. -/
def c1 : RNG := ⟨fun _ => 1, 0⟩

end Game

namespace App

open Game

/-- `init_level(level)` eventually returns (for some amount of fuel =
number of attempts of its `while True:` loop). -/
def InitTerminates (r : RNG) (level : Nat) : Prop :=
  ∃ fuel d r1, init_level fuel r level = some (d, r1)

/-- The concrete 5 × 5 maze generated from the constant-0 stream,
with the stream state it leaves behind (used by witnesses). -/
def mazeTest : Maze := ((make_maze c0 5 5).getD ([], c0)).1

def mazeTestRng : RNG := ((make_maze c0 5 5).getD ([], c0)).2

/-- The level-1 parameters.  Computing them consumes no draws
(`sum(randint(3,5) for _ in range(0))`), so the stream leaves
`compute_level_params` unchanged. -/
def params1 : LevelParams := (compute_level_params c0 1).1

/-- A stream whose draw 47 — the exit choice of the first level-1
placement attempt — picks a far-away floor cell, so that single attempt
passes the distance check and `init_level` succeeds with fuel 1. -/
def gW : RNG := ⟨fun n => if n = 47 then 88 else 0, 0⟩

/-- Placeholder level data for `Option.getD`. -/
def ld0 : LevelData :=
  { maze := [], px := 0, py := 0, steps_left := 0, gold_needed := 0,
    gold_collected := 0, exit_xy := (0, 0), monsters := [] }

/-- The level-1 data produced by `init_level` from `gW`. -/
def ldW : LevelData := ((init_level 1 gW 1).getD (ld0, c0)).1

def ldWrng : RNG := ((init_level 1 gW 1).getD (ld0, c0)).2

/-- A blank session state, as before the first `load_level`. -/
def st0 : GameState :=
  { maze := [], px := 0, py := 0, steps_left := 0, gold_needed := 0,
    gold_collected := 0, exit_xy := (0, 0), monsters := [], level := 1,
    win_all := false, game_over := false }

/-- Level 1 freshly loaded from the `gW` stream. -/
def stW : GameState := ((load_level 1 gW st0 1).getD (st0, c0)).1

def stWrng : RNG := ((load_level 1 gW st0 1).getD (st0, c0)).2

/-- A stream whose first level-3 placement attempt succeeds and puts
the single monster orthogonally adjacent to the exit cell. -/
def rC8 : RNG := ⟨fun n => if n = 48 then 88 else if n = 49 then 8 else 0, 0⟩

/-- The session as it enters level 3 (monsters appear from level 3 on). -/
def stBase3 : GameState := { st0 with level := 3 }

/-- Level 3 freshly loaded from the `rC8` stream. -/
def stC8 : GameState := ((load_level 1 rC8 stBase3 3).getD (st0, c0)).1

/-- The state after one leftward turn from `stC8`. -/
def stC8x : GameState := ((process_move 1 c0 (-1) 0 1 stC8).getD (st0, c0)).1

/-- The terminal all-twenty-levels-won state. -/
def stWin : GameState :=
  { st0 with level := 20, win_all := true, game_over := true }

end App

namespace Vibe

/-- A tiny grid for `src/play_game_vibecoding.py`: one floor cell at
`(1, 1)`, a gold cell at `(3, 1)` unreachable behind a wall. -/
def vbMaze : Game.Maze :=
  [['#', '#', '#', '#', '#'],
   ['#', ' ', '#', 'G', '#'],
   ['#', '#', '#', '#', '#']]

/-- A mid-game state of the vibecoding variant: the player on the floor
cell, gold still on the board, steps remaining. -/
def vbState : VState :=
  { maze := vbMaze, px := 1, py := 1, score := 0, steps_left := 10,
    game_over := false, win := false }

/-- The dimension coercion of this file's `make_maze`: even values are
reduced by one (no clamp). -/
def odd_down (n : Nat) : Nat := if n % 2 = 0 then n - 1 else n

/-- The concrete 5 × 5 maze of the vibecoding generator under the
constant-0 stream, with the leftover stream (used by witnesses). -/
def mazeTestV : Game.Maze := ((make_maze Game.c0 5 5).getD ([], Game.c0)).1

def mazeTestVRng : Game.RNG := ((make_maze Game.c0 5 5).getD ([], Game.c0)).2

end Vibe

/-!
## Theorems

Basic grid lemmas first, then the development for each claim.
-/

namespace Game

theorem getD_mem {α : Type} (l : List α) (i : Nat) (a : α) (ha : a ∈ l) :
    l.getD i a ∈ l := by
  rw [List.getD_eq_getElem?_getD]
  by_cases hi : i < l.length
  · rw [List.getElem?_eq_getElem hi]
    exact List.getElem_mem hi
  · rw [List.getElem?_eq_none (by omega)]
    exact ha

theorem rect_row_length {m : Maze} {w h : Nat} (hm : Rect m w h) {i : Nat}
    (hi : i < m.length) : (m.getD i []).length = w := by
  have h1 : m.getD i [] ∈ m := by
    rw [List.getD_eq_getElem?_getD, List.getElem?_eq_getElem hi]
    exact List.getElem_mem hi
  exact hm.2 _ h1

theorem rect_setCell {m : Maze} {w h : Nat} (hm : Rect m w h) (x y : Int) (c : Char) :
    Rect (setCell m x y c) w h := by
  unfold setCell
  split
  · by_cases hy : y.toNat < m.length
    · refine ⟨by rw [List.length_set]; exact hm.1, ?_⟩
      intro row hrow
      rcases List.mem_or_eq_of_mem_set hrow with h | h
      · exact hm.2 _ h
      · subst h
        rw [List.length_set]
        exact rect_row_length hm hy
    · rw [List.set_eq_of_length_le (by omega)]
      exact hm
  · exact hm

theorem cellAt_nonneg {m : Maze} {x y : Int} (hx : 0 ≤ x) (hy : 0 ≤ y) :
    cellAt m x y = (m.getD y.toNat []).getD x.toNat '#' := by
  unfold cellAt
  simp [hx, hy]

theorem cellAt_neg {m : Maze} {x y : Int} (h : ¬(0 ≤ x ∧ 0 ≤ y)) :
    cellAt m x y = '#' := by
  unfold cellAt
  split
  · next hb =>
    simp only [Bool.and_eq_true, decide_eq_true_eq] at hb
    exact absurd hb h
  · rfl

theorem setCell_neg {m : Maze} {x y : Int} {c : Char} (h : ¬(0 ≤ x ∧ 0 ≤ y)) :
    setCell m x y c = m := by
  unfold setCell
  split
  · next hb =>
    simp only [Bool.and_eq_true, decide_eq_true_eq] at hb
    exact absurd hb h
  · rfl

/-- Reading after writing, row-level helper. -/
theorem getD_set_row (l : List Char) (xi x1 : Nat) (c : Char) :
    (l.set xi c).getD x1 '#' = if x1 = xi ∧ xi < l.length then c else l.getD x1 '#' := by
  induction l generalizing xi x1 with
  | nil => simp
  | cons hd tl ih =>
    cases xi with
    | zero =>
      cases x1 with
      | zero => simp
      | succ x1 => simp
    | succ xi =>
      cases x1 with
      | zero => simp
      | succ x1 =>
        simp only [List.set_cons_succ, List.getD_cons_succ, List.length_cons, ih]
        by_cases hc : x1 = xi ∧ xi < tl.length
        · rw [if_pos hc, if_pos ⟨by omega, by omega⟩]
        · rw [if_neg hc, if_neg (fun hcc => hc ⟨by omega, by omega⟩)]

/-- Reading after writing, `Nat`-indexed helper. -/
theorem getD2_set (m : Maze) (yi xi y1 x1 : Nat) (c : Char) :
    ((m.set yi ((m.getD yi []).set xi c)).getD y1 []).getD x1 '#' =
      if x1 = xi ∧ y1 = yi ∧ yi < m.length ∧ xi < (m.getD yi []).length then c
      else (m.getD y1 []).getD x1 '#' := by
  induction m generalizing yi y1 with
  | nil => simp
  | cons hd tl ih =>
    cases yi with
    | zero =>
      cases y1 with
      | zero =>
        simp only [List.getD_cons_zero, List.set_cons_zero, List.length_cons]
        rw [getD_set_row]
        by_cases hc : x1 = xi ∧ xi < hd.length
        · rw [if_pos hc, if_pos ⟨hc.1, trivial, by omega, hc.2⟩]
        · rw [if_neg hc, if_neg (fun hcc => hc ⟨hcc.1, hcc.2.2.2⟩)]
      | succ y1 =>
        simp only [List.getD_cons_zero, List.set_cons_zero, List.getD_cons_succ]
        rw [if_neg (fun hcc => by omega)]
    | succ yi =>
      cases y1 with
      | zero =>
        simp only [List.getD_cons_succ, List.set_cons_succ, List.getD_cons_zero]
        rw [if_neg (fun hcc => by omega)]
      | succ y1 =>
        simp only [List.getD_cons_succ, List.set_cons_succ, List.length_cons]
        rw [ih]
        by_cases hc : x1 = xi ∧ y1 = yi ∧ yi < tl.length ∧ xi < (tl.getD yi []).length
        · rw [if_pos hc, if_pos ⟨hc.1, by omega, by omega, hc.2.2.2⟩]
        · rw [if_neg hc, if_neg (fun hcc => hc ⟨hcc.1, by omega, by omega, hcc.2.2.2⟩)]

/-- `setCell` with non-negative coordinates is a `List.set`. -/
theorem setCell_nonneg {m : Maze} {x y : Int} (c : Char) (hx : 0 ≤ x) (hy : 0 ≤ y) :
    setCell m x y c = m.set y.toNat ((m.getD y.toNat []).set x.toNat c) := by
  unfold setCell
  simp [hx, hy]

/-- Reading after writing: the master characterization. -/
theorem cellAt_setCell (m : Maze) (x y x1 y1 : Int) (c : Char) :
    cellAt (setCell m x y c) x1 y1 =
      if x1 = x ∧ y1 = y ∧ 0 ≤ x ∧ 0 ≤ y ∧ y.toNat < m.length ∧
          x.toNat < (m.getD y.toNat []).length then c
      else cellAt m x1 y1 := by
  by_cases hxy : 0 ≤ x ∧ 0 ≤ y
  · by_cases hxy1 : 0 ≤ x1 ∧ 0 ≤ y1
    · rw [cellAt_nonneg hxy1.1 hxy1.2, setCell_nonneg c hxy.1 hxy.2, getD2_set]
      by_cases hcc : x1.toNat = x.toNat ∧ y1.toNat = y.toNat ∧ y.toNat < m.length ∧
          x.toNat < (m.getD y.toNat []).length
      · rw [if_pos hcc, if_pos ⟨by omega, by omega, hxy.1, hxy.2, hcc.2.2⟩]
      · have hneg : ¬(x1 = x ∧ y1 = y ∧ 0 ≤ x ∧ 0 ≤ y ∧ y.toNat < m.length ∧
            x.toNat < (m.getD y.toNat []).length) :=
          fun hc => hcc ⟨by omega, by omega, hc.2.2.2.2⟩
        rw [if_neg hcc, if_neg hneg]
        exact (cellAt_nonneg hxy1.1 hxy1.2).symm
    · have hneg : ¬(x1 = x ∧ y1 = y ∧ 0 ≤ x ∧ 0 ≤ y ∧ y.toNat < m.length ∧
          x.toNat < (m.getD y.toNat []).length) :=
        fun hc => hxy1 ⟨hc.1 ▸ hxy.1, hc.2.1 ▸ hxy.2⟩
      rw [cellAt_neg hxy1, cellAt_neg hxy1, if_neg hneg]
  · have hneg : ¬(x1 = x ∧ y1 = y ∧ 0 ≤ x ∧ 0 ≤ y ∧ y.toNat < m.length ∧
        x.toNat < (m.getD y.toNat []).length) :=
      fun hc => hxy ⟨hc.2.2.1, hc.2.2.2.1⟩
    rw [setCell_neg hxy, if_neg hneg]

/-- Reading an untouched cell after a write. -/
theorem cellAt_setCell_ne {m : Maze} {x y : Int} (c : Char) {x1 y1 : Int}
    (h : ¬(x1 = x ∧ y1 = y)) :
    cellAt (setCell m x y c) x1 y1 = cellAt m x1 y1 := by
  rw [cellAt_setCell]
  rw [if_neg (by intro hc; exact h ⟨hc.1, hc.2.1⟩)]

/-- Reading the written cell (in-bounds write). -/
theorem cellAt_setCell_eq {m : Maze} {w h : Nat} (hm : Rect m w h) {x y : Int}
    (c : Char) (hx0 : 0 ≤ x) (hy0 : 0 ≤ y) (hx : x < (w : Int)) (hy : y < (h : Int)) :
    cellAt (setCell m x y c) x y = c := by
  have hyl : y.toNat < m.length := by rw [hm.1]; omega
  have hxl : x.toNat < (m.getD y.toNat []).length := by
    rw [rect_row_length hm hyl]; omega
  rw [cellAt_setCell, if_pos ⟨rfl, rfl, hx0, hy0, hyl, hxl⟩]

theorem countP_set_le (l : List Char) (n : Nat) :
    (l.set n ' ').countP (fun ch => ch == '#') ≤ l.countP (fun ch => ch == '#') := by
  induction l generalizing n with
  | nil => simp
  | cons hd tl ih =>
    cases n with
    | zero => simp [List.countP_cons]
    | succ n =>
      simp only [List.set_cons_succ, List.countP_cons]
      have := ih n
      omega

theorem countP_set_lt (l : List Char) (n : Nat) (hn : n < l.length)
    (hl : l.getD n '#' = '#') :
    (l.set n ' ').countP (fun ch => ch == '#') < l.countP (fun ch => ch == '#') := by
  induction l generalizing n with
  | nil => simp at hn
  | cons hd tl ih =>
    cases n with
    | zero =>
      simp only [List.getD_cons_zero] at hl
      simp [List.countP_cons, hl]
    | succ n =>
      simp only [List.getD_cons_succ] at hl
      simp only [List.set_cons_succ, List.countP_cons]
      have := ih n (by simpa using hn) hl
      omega

theorem wallCount_set_le (m : Maze) (y x : Nat) :
    wallCount (m.set y ((m.getD y []).set x ' ')) ≤ wallCount m := by
  induction m generalizing y with
  | nil => simp
  | cons hd tl ih =>
    cases y with
    | zero =>
      simp only [List.getD_cons_zero, List.set_cons_zero]
      unfold wallCount
      simp only [List.map_cons, List.sum_cons]
      have := countP_set_le hd x
      omega
    | succ y =>
      simp only [List.getD_cons_succ, List.set_cons_succ]
      unfold wallCount
      simp only [List.map_cons, List.sum_cons]
      have := ih y
      unfold wallCount at this
      omega

theorem wallCount_set_lt (m : Maze) (y x : Nat) (hy : y < m.length)
    (hx : x < (m.getD y []).length) (hw : (m.getD y []).getD x '#' = '#') :
    wallCount (m.set y ((m.getD y []).set x ' ')) < wallCount m := by
  induction m generalizing y with
  | nil => simp at hy
  | cons hd tl ih =>
    cases y with
    | zero =>
      simp only [List.getD_cons_zero] at hx hw
      simp only [List.getD_cons_zero, List.set_cons_zero]
      unfold wallCount
      simp only [List.map_cons, List.sum_cons]
      have := countP_set_lt hd x hx hw
      omega
    | succ y =>
      simp only [List.getD_cons_succ] at hx hw
      simp only [List.getD_cons_succ, List.set_cons_succ]
      unfold wallCount
      simp only [List.map_cons, List.sum_cons]
      have := ih y (by simpa using hy) hx hw
      unfold wallCount at this
      omega

theorem wallCount_setCell_le (m : Maze) (x y : Int) :
    wallCount (setCell m x y ' ') ≤ wallCount m := by
  unfold setCell
  split
  · exact wallCount_set_le m y.toNat x.toNat
  · exact le_refl _

theorem wallCount_setCell_lt {m : Maze} {w h : Nat} (hm : Rect m w h) {x y : Int}
    (hx0 : 0 ≤ x) (hy0 : 0 ≤ y) (hx : x < (w : Int)) (hy : y < (h : Int))
    (hw : cellAt m x y = '#') :
    wallCount (setCell m x y ' ') < wallCount m := by
  have hyl : y.toNat < m.length := by rw [hm.1]; omega
  have hxl : x.toNat < (m.getD y.toNat []).length := by
    rw [rect_row_length hm hyl]; omega
  rw [cellAt_nonneg hx0 hy0] at hw
  unfold setCell
  simp only [hx0, hy0, decide_True, Bool.and_self, if_true]
  exact wallCount_set_lt m y.toNat x.toNat hyl hxl hw

theorem rect_replicate (w h : Nat) :
    Rect (List.replicate h (List.replicate w '#')) w h := by
  refine ⟨by simp, ?_⟩
  intro row hrow
  rw [List.eq_of_mem_replicate hrow]
  simp

theorem countP_wall_replicate (w : Nat) :
    (List.replicate w '#').countP (fun ch => ch == '#') = w := by
  induction w with
  | zero => simp
  | succ w ih => simp [List.replicate_succ, List.countP_cons, ih]

theorem wallCount_replicate (w h : Nat) :
    wallCount (List.replicate h (List.replicate w '#')) = h * w := by
  unfold wallCount
  induction h with
  | zero => simp
  | succ h ih =>
    simp only [List.replicate_succ, List.map_cons, List.sum_cons, ih,
      countP_wall_replicate]
    ring

end Game

namespace App

open Game

theorem randrange_odd_some {w : Nat} (s : Nat → Nat) (p : Nat) (hw : w / 2 ≠ 0) :
    randrange_odd ⟨s, p⟩ w =
      some (((1 + 2 * (s p % (w / 2)) : Nat) : Int), ⟨s, p + 1⟩) := by
  unfold randrange_odd
  rw [if_neg hw]
  rfl

/-- Every cell of the all-wall grid reads `'#'`. -/
theorem cellAt_replicate (w h : Nat) (x y : Int) :
    cellAt (List.replicate h (List.replicate w '#')) x y = '#' := by
  by_cases hxy : 0 ≤ x ∧ 0 ≤ y
  · rw [cellAt_nonneg hxy.1 hxy.2]
    simp only [List.getD_eq_getElem?_getD, List.getElem?_replicate]
    by_cases hy : y.toNat < h
    · rw [if_pos hy]
      simp only [Option.getD_some]
      rw [List.getElem?_replicate]
      by_cases hx : x.toNat < w
      · rw [if_pos hx]
        rfl
      · rw [if_neg hx]
        rfl
    · rw [if_neg hy]
      simp only [Option.getD_none]
      simp
  · exact cellAt_neg hxy

/-- Every candidate produced by the carve loop's neighbour scan:
bounds, unvisitedness, and its precise shape. -/
theorem carve_nbrs_mem {m : Maze} {w h : Nat} {x y : Int} {cand : Pos × Pos}
    (hc : cand ∈ carve_nbrs m w h x y) :
    1 ≤ cand.1.1 ∧ cand.1.1 < (w : Int) - 1 ∧ 1 ≤ cand.1.2 ∧ cand.1.2 < (h : Int) - 1 ∧
    cellAt m cand.1.1 cand.1.2 = '#' ∧
    ((cand.1.1 = x + 2 ∧ cand.1.2 = y ∧ cand.2.1 = 1 ∧ cand.2.2 = 0) ∨
     (cand.1.1 = x - 2 ∧ cand.1.2 = y ∧ cand.2.1 = -1 ∧ cand.2.2 = 0) ∨
     (cand.1.1 = x ∧ cand.1.2 = y + 2 ∧ cand.2.1 = 0 ∧ cand.2.2 = 1) ∨
     (cand.1.1 = x ∧ cand.1.2 = y - 2 ∧ cand.2.1 = 0 ∧ cand.2.2 = -1)) := by
  unfold carve_nbrs at hc
  rw [List.mem_filterMap] at hc
  obtain ⟨d, hd, hsome⟩ := hc
  simp only [List.mem_cons, List.not_mem_nil, or_false] at hd
  rcases hd with rfl | rfl | rfl | rfl
  · simp only at hsome
    split at hsome
    · next hcond =>
      simp only [Bool.and_eq_true, decide_eq_true_eq, beq_iff_eq] at hcond
      obtain ⟨⟨⟨⟨hA, hB⟩, hC⟩, hD⟩, hE⟩ := hcond
      injection hsome with hv
      subst hv
      dsimp only
      exact ⟨by omega, by omega, by omega, by omega, hE, Or.inl ⟨by omega, by omega, by decide, by decide⟩⟩
    · exact absurd hsome (by simp)
  · simp only at hsome
    split at hsome
    · next hcond =>
      simp only [Bool.and_eq_true, decide_eq_true_eq, beq_iff_eq] at hcond
      obtain ⟨⟨⟨⟨hA, hB⟩, hC⟩, hD⟩, hE⟩ := hcond
      injection hsome with hv
      subst hv
      dsimp only
      exact ⟨by omega, by omega, by omega, by omega, hE, Or.inr (Or.inl ⟨by omega, by omega, by decide, by decide⟩)⟩
    · exact absurd hsome (by simp)
  · simp only at hsome
    split at hsome
    · next hcond =>
      simp only [Bool.and_eq_true, decide_eq_true_eq, beq_iff_eq] at hcond
      obtain ⟨⟨⟨⟨hA, hB⟩, hC⟩, hD⟩, hE⟩ := hcond
      injection hsome with hv
      subst hv
      dsimp only
      exact ⟨by omega, by omega, by omega, by omega, hE, Or.inr (Or.inr (Or.inl ⟨by omega, by omega, by decide, by decide⟩))⟩
    · exact absurd hsome (by simp)
  · simp only at hsome
    split at hsome
    · next hcond =>
      simp only [Bool.and_eq_true, decide_eq_true_eq, beq_iff_eq] at hcond
      obtain ⟨⟨⟨⟨hA, hB⟩, hC⟩, hD⟩, hE⟩ := hcond
      injection hsome with hv
      subst hv
      dsimp only
      exact ⟨by omega, by omega, by omega, by omega, hE, Or.inr (Or.inr (Or.inr ⟨by omega, by omega, by decide, by decide⟩))⟩
    · exact absurd hsome (by simp)

/-- Unfolding one carve step in the branch that carves. -/
theorem carve_loop_carve_eq {w h : Nat} (fuel : Nat) (r : RNG) (m : Maze)
    (x y : Int) (rest : List Pos) {nb : Pos × Pos} {nbs : List (Pos × Pos)}
    (hnb : carve_nbrs m w h x y = nb :: nbs) :
    carve_loop w h (fuel + 1) r m ((x, y) :: rest) =
      carve_loop w h fuel ⟨r.seq, r.pos + 1⟩
        (setCell
          (setCell m
            (x + ((nb :: nbs).getD (r.seq r.pos % (nb :: nbs).length) nb).2.1)
            (y + ((nb :: nbs).getD (r.seq r.pos % (nb :: nbs).length) nb).2.2) ' ')
          ((nb :: nbs).getD (r.seq r.pos % (nb :: nbs).length) nb).1.1
          ((nb :: nbs).getD (r.seq r.pos % (nb :: nbs).length) nb).1.2 ' ')
        (((nb :: nbs).getD (r.seq r.pos % (nb :: nbs).length) nb).1 :: (x, y) :: rest) := by
  conv_lhs => rw [carve_loop]
  rw [hnb]
  rfl

/-- Unfolding one carve step in the branch that pops. -/
theorem carve_loop_pop_eq {w h : Nat} (fuel : Nat) (r : RNG) (m : Maze)
    (x y : Int) (rest : List Pos) (hnb : carve_nbrs m w h x y = []) :
    carve_loop w h (fuel + 1) r m ((x, y) :: rest) = carve_loop w h fuel r m rest := by
  conv_lhs => rw [carve_loop]
  rw [hnb]

/-- The carve loop preserves rectangularity. -/
theorem carve_loop_rect {w h : Nat} : ∀ (fuel : Nat) (r : RNG) (m : Maze)
    (stack : List Pos) (g : Maze) (r1 : RNG),
    carve_loop w h fuel r m stack = some (g, r1) → Rect m w h → Rect g w h := by
  intro fuel
  induction fuel with
  | zero => intro r m stack g r1 hrun; simp [carve_loop] at hrun
  | succ fuel ih =>
    intro r m stack g r1 hrun hm
    match stack with
    | [] =>
      rw [carve_loop] at hrun
      injection hrun with hrun
      injection hrun with h1 h2
      exact h1 ▸ hm
    | (x, y) :: rest =>
      cases hnb : carve_nbrs m w h x y with
      | nil =>
        rw [carve_loop_pop_eq fuel r m x y rest hnb] at hrun
        exact ih r m rest g r1 hrun hm
      | cons nb nbs =>
        rw [carve_loop_carve_eq fuel r m x y rest hnb] at hrun
        exact ih _ _ _ g r1 hrun (rect_setCell (rect_setCell hm _ _ _) _ _ _)

/-- The carve loop terminates within fuel exceeding twice the wall
count plus the stack height: each iteration either pops or carves an
unvisited cell. -/
theorem carve_loop_some {w h : Nat} : ∀ (fuel : Nat) (r : RNG) (m : Maze)
    (stack : List Pos), Rect m w h → 2 * wallCount m + stack.length < fuel →
    ∃ res, carve_loop w h fuel r m stack = some res := by
  intro fuel
  induction fuel with
  | zero => intro r m stack hm hf; omega
  | succ fuel ih =>
    intro r m stack hm hf
    match stack with
    | [] => exact ⟨(m, r), by rw [carve_loop]⟩
    | (x, y) :: rest =>
      cases hnb : carve_nbrs m w h x y with
      | nil =>
        rw [carve_loop_pop_eq fuel r m x y rest hnb]
        exact ih r m rest hm (by simp only [List.length_cons] at hf; omega)
      | cons nb nbs =>
        rw [carve_loop_carve_eq fuel r m x y rest hnb]
        set c := (nb :: nbs).getD (r.seq r.pos % (nb :: nbs).length) nb with hcdef
        have hcm : c ∈ carve_nbrs m w h x y := by
          rw [hnb]
          exact getD_mem _ _ _ (List.mem_cons_self nb nbs)
        obtain ⟨hx1, hx2, hy1, hy2, hwall, hshape⟩ := carve_nbrs_mem hcm
        have hbc : ¬(c.1.1 = x + c.2.1 ∧ c.1.2 = y + c.2.2) := by
          rcases hshape with hsh | hsh | hsh | hsh <;> omega
        have hm1 : Rect (setCell m (x + c.2.1) (y + c.2.2) ' ') w h :=
          rect_setCell hm _ _ _
        have hwall1 : cellAt (setCell m (x + c.2.1) (y + c.2.2) ' ') c.1.1 c.1.2 = '#' := by
          rw [cellAt_setCell_ne _ hbc]
          exact hwall
        have hlt : wallCount (setCell (setCell m (x + c.2.1) (y + c.2.2) ' ')
            c.1.1 c.1.2 ' ') < wallCount m := by
          have h1 := wallCount_setCell_le m (x + c.2.1) (y + c.2.2)
          have h2 := wallCount_setCell_lt hm1 (by omega) (by omega)
            (by omega) (by omega) hwall1
          omega
        refine ih _ _ _ (rect_setCell hm1 _ _ _) ?_
        simp only [List.length_cons] at hf ⊢
        omega

theorem ensure_odd_mod (n : Nat) : ensure_odd n % 2 = 1 := by
  unfold ensure_odd
  split
  · assumption
  · split <;> omega

theorem ensure_odd_ge3 {n : Nat} (hn : 3 ≤ n) : 3 ≤ ensure_odd n := by
  unfold ensure_odd
  split
  · omega
  · split <;> omega

theorem ensure_odd_lt3 {n : Nat} (hn : n < 3) : ensure_odd n = 1 := by
  unfold ensure_odd
  split
  · omega
  · split <;> omega

/-- `make_maze` succeeds and produces a rectangular grid whenever both
post-coercion dimensions are at least 3. -/
theorem make_maze_some (r : RNG) (w0 h0 : Nat) (hw : 3 ≤ w0) (hh : 3 ≤ h0) :
    ∃ g r1, make_maze r w0 h0 = some (g, r1) ∧
      Rect g (ensure_odd w0) (ensure_odd h0) := by
  obtain ⟨s, p⟩ := r
  have hw3 := ensure_odd_ge3 hw
  have hh3 := ensure_odd_ge3 hh
  have hsx := randrange_odd_some (w := ensure_odd w0) s p (by omega)
  have hsy := randrange_odd_some (w := ensure_odd h0) s (p + 1) (by omega)
  have hxb : ((1 + 2 * (s p % (ensure_odd w0 / 2)) : Nat) : Int) < (ensure_odd w0 : Int) := by
    have h1 : s p % (ensure_odd w0 / 2) < ensure_odd w0 / 2 :=
      Nat.mod_lt _ (by omega)
    have h2 := ensure_odd_mod w0
    omega
  have hyb : ((1 + 2 * (s (p + 1) % (ensure_odd h0 / 2)) : Nat) : Int) < (ensure_odd h0 : Int) := by
    have h1 : s (p + 1) % (ensure_odd h0 / 2) < ensure_odd h0 / 2 :=
      Nat.mod_lt _ (by omega)
    have h2 := ensure_odd_mod h0
    omega
  have hrect : Rect (setCell
      (List.replicate (ensure_odd h0) (List.replicate (ensure_odd w0) '#'))
      ((1 + 2 * (s p % (ensure_odd w0 / 2)) : Nat) : Int)
      ((1 + 2 * (s (p + 1) % (ensure_odd h0 / 2)) : Nat) : Int) ' ')
      (ensure_odd w0) (ensure_odd h0) :=
    rect_setCell (rect_replicate _ _) _ _ _
  have hwc : wallCount (setCell
      (List.replicate (ensure_odd h0) (List.replicate (ensure_odd w0) '#'))
      ((1 + 2 * (s p % (ensure_odd w0 / 2)) : Nat) : Int)
      ((1 + 2 * (s (p + 1) % (ensure_odd h0 / 2)) : Nat) : Int) ' ') <
      ensure_odd h0 * ensure_odd w0 := by
    have hlt := wallCount_setCell_lt (rect_replicate (ensure_odd w0) (ensure_odd h0))
      (x := ((1 + 2 * (s p % (ensure_odd w0 / 2)) : Nat) : Int))
      (y := ((1 + 2 * (s (p + 1) % (ensure_odd h0 / 2)) : Nat) : Int))
      (by omega) (by omega) hxb hyb (cellAt_replicate _ _ _ _)
    rw [wallCount_replicate] at hlt
    exact hlt
  obtain ⟨⟨g, r1⟩, hg⟩ := carve_loop_some (2 * (ensure_odd w0 * ensure_odd h0) + 2)
    ⟨s, p + 1 + 1⟩ _ [(((1 + 2 * (s p % (ensure_odd w0 / 2)) : Nat) : Int),
      ((1 + 2 * (s (p + 1) % (ensure_odd h0 / 2)) : Nat) : Int))] hrect
    (by simp only [List.length_cons, List.length_nil]
        have hcm : ensure_odd w0 * ensure_odd h0 = ensure_odd h0 * ensure_odd w0 :=
          Nat.mul_comm _ _
        omega)
  refine ⟨g, r1, ?_, carve_loop_rect _ _ _ _ _ _ hg hrect⟩
  simp only [make_maze, hsx, hsy]
  exact hg

/-- `make_maze` fails exactly on requested dimensions below 3. -/
theorem make_maze_none (r : RNG) (w0 h0 : Nat) (hsmall : w0 < 3 ∨ h0 < 3) :
    make_maze r w0 h0 = none := by
  rcases hsmall with hs | hs
  · have h1 : ensure_odd w0 / 2 = 0 := by rw [ensure_odd_lt3 hs]
    have hr : randrange_odd r (ensure_odd w0) = none := by
      unfold randrange_odd
      rw [if_pos h1]
    simp only [make_maze, hr]
  · by_cases hw : ensure_odd w0 / 2 = 0
    · have hr : randrange_odd r (ensure_odd w0) = none := by
        unfold randrange_odd
        rw [if_pos hw]
      simp only [make_maze, hr]
    · obtain ⟨s, p⟩ := r
      have h1 : ensure_odd h0 / 2 = 0 := by rw [ensure_odd_lt3 hs]
      have hr2 : randrange_odd (⟨s, p + 1⟩ : RNG) (ensure_odd h0) = none := by
        unfold randrange_odd
        rw [if_pos h1]
      simp only [make_maze, randrange_odd_some s p hw, hr2]

end App

/-!
### Claim C2 — determinism of `compute_level_params`
-/

/-- **C2, counterexample**: `compute_level_params` is *not* a pure
function of the level index alone: the `steps` component draws
`randint(3, 5)` values from the ambient RNG, so at level 2 the
constant-0 stream gives `steps = 147` while the constant-1 stream gives
`steps = 146`.  The claim that two calls with the same level return
identical parameters independent of the RNG stream is false. -/
theorem compute_level_params_rng_dependent :
    (App.compute_level_params Game.c0 2).1 ≠ (App.compute_level_params Game.c1 2).1 := by
  decide

/-- **C2, amended**: for every level, the `w`, `h`, `gold_needed`,
`gold_total` and `monster_count` components of `compute_level_params`
are identical across any two RNG streams (they are pure functions of
the level); only `steps` depends on the stream, and at level 1 (zero
draws) even `steps` is the constant 150. -/
theorem compute_level_params_shape_deterministic (r r1 : Game.RNG) (level : Nat) :
    (App.compute_level_params r level).1.w = (App.compute_level_params r1 level).1.w ∧
    (App.compute_level_params r level).1.h = (App.compute_level_params r1 level).1.h ∧
    (App.compute_level_params r level).1.gold_needed =
      (App.compute_level_params r1 level).1.gold_needed ∧
    (App.compute_level_params r level).1.gold_total =
      (App.compute_level_params r1 level).1.gold_total ∧
    (App.compute_level_params r level).1.monster_count =
      (App.compute_level_params r1 level).1.monster_count ∧
    (App.compute_level_params r 1).1.steps = 150 :=
  ⟨rfl, rfl, rfl, rfl, rfl, rfl⟩

/-!
### Claim C3 — dimension coercion of `make_maze`
-/

/-- **C3, counterexample**: a requested width of 2 does *not* clamp to
the minimum viable odd size 3: `ensure_odd 2 = 1`, and `make_maze`
then fails (Python's `randrange(1, 1, 2)` raises `ValueError`) instead
of returning a grid.  The claim "too-small inputs clamp to 3, never
failing" is false. -/
theorem make_maze_small_coerces_to_one_and_fails :
    Game.ensure_odd 2 = 1 ∧ App.make_maze Game.c0 2 5 = none :=
  ⟨rfl, rfl⟩

/-- **C3, amended**: for every requested width and height that are at
least 3, `make_maze` returns a rectangular grid whose width and height
are the odd coercions of the request — odd and at least 3 (even values
reduced by one); for a requested width or height below 3 the coercion
yields 1 and `make_maze` fails (raises) instead of clamping to 3. -/
theorem make_maze_dims (r : Game.RNG) (w0 h0 : Nat) :
    (3 ≤ w0 → 3 ≤ h0 → ∃ g r1, App.make_maze r w0 h0 = some (g, r1) ∧
      Game.Rect g (Game.ensure_odd w0) (Game.ensure_odd h0) ∧
      Game.ensure_odd w0 % 2 = 1 ∧ Game.ensure_odd h0 % 2 = 1 ∧
      3 ≤ Game.ensure_odd w0 ∧ 3 ≤ Game.ensure_odd h0) ∧
    (w0 < 3 ∨ h0 < 3 → App.make_maze r w0 h0 = none ∧
      (Game.ensure_odd w0 = 1 ∨ Game.ensure_odd h0 = 1)) := by
  constructor
  · intro hw hh
    obtain ⟨g, r1, hg, hrect⟩ := App.make_maze_some r w0 h0 hw hh
    exact ⟨g, r1, hg, hrect, App.ensure_odd_mod w0, App.ensure_odd_mod h0,
      App.ensure_odd_ge3 hw, App.ensure_odd_ge3 hh⟩
  · intro hs
    refine ⟨App.make_maze_none r w0 h0 hs, ?_⟩
    rcases hs with hs | hs
    · exact Or.inl (App.ensure_odd_lt3 hs)
    · exact Or.inr (App.ensure_odd_lt3 hs)

/-- Witness for `make_maze_dims` at concrete inputs: requested 5 × 4
succeeds with post-coercion dimensions 5 × 3, and requested 2 × 5
fails with coercion 1. -/
theorem make_maze_dims_witness :
    (∃ g r1, App.make_maze Game.c0 5 4 = some (g, r1) ∧
      Game.Rect g (Game.ensure_odd 5) (Game.ensure_odd 4) ∧
      Game.ensure_odd 5 % 2 = 1 ∧ Game.ensure_odd 4 % 2 = 1 ∧
      3 ≤ Game.ensure_odd 5 ∧ 3 ≤ Game.ensure_odd 4) ∧
    (App.make_maze Game.c1 2 5 = none ∧
      (Game.ensure_odd 2 = 1 ∨ Game.ensure_odd 5 = 1)) :=
  ⟨(make_maze_dims Game.c0 5 4).1 (by decide) (by decide),
   (make_maze_dims Game.c1 2 5).2 (Or.inl (by decide))⟩

namespace Game

/-! ### Walk theory: paths through floor cells -/

theorem adjPos_symm {p q : Pos} (h : adjPos p q) : adjPos q p := by
  unfold adjPos at h ⊢
  omega

theorem Walk.floor_mem {m : Maze} {p q : Pos} {l : List Pos} (w : Walk m p q l) :
    ∀ x ∈ l, floorAt m x := by
  induction w with
  | single p hp =>
    intro x hx
    rw [List.mem_singleton] at hx
    exact hx ▸ hp
  | cons p a r l hp ha w ih =>
    intro x hx
    rcases List.mem_cons.mp hx with rfl | hx
    · exact hp
    · exact ih x hx

theorem Walk.head_eq {m : Maze} {p q : Pos} {l : List Pos} (w : Walk m p q l) :
    l.head? = some p := by
  cases w <;> rfl

theorem Walk.start_mem {m : Maze} {p q : Pos} {l : List Pos} (w : Walk m p q l) :
    p ∈ l := by
  cases w
  · exact List.mem_singleton_self p
  · exact List.mem_cons_self _ _

theorem Walk.end_mem {m : Maze} {p q : Pos} {l : List Pos} (w : Walk m p q l) :
    q ∈ l := by
  induction w with
  | single p _ => exact List.mem_singleton_self p
  | cons p a r l _ _ _ ih => exact List.mem_cons_of_mem p ih

theorem Walk.start_floor {m : Maze} {p q : Pos} {l : List Pos} (w : Walk m p q l) :
    floorAt m p := w.floor_mem p w.start_mem

theorem Walk.end_floor {m : Maze} {p q : Pos} {l : List Pos} (w : Walk m p q l) :
    floorAt m q := w.floor_mem q w.end_mem

theorem Walk.snoc {m : Maze} {p q t : Pos} {l : List Pos} (w : Walk m p q l)
    (hadj : adjPos q t) (ht : floorAt m t) : Walk m p t (l ++ [t]) := by
  induction w with
  | single p hp => exact Walk.cons p t t [t] hp hadj (Walk.single t ht)
  | cons p a r l hp ha _ ih => exact Walk.cons p a t _ hp ha (ih hadj)

theorem Walk.reverse {m : Maze} {p q : Pos} {l : List Pos} (w : Walk m p q l) :
    Walk m q p l.reverse := by
  induction w with
  | single p hp => exact Walk.single p hp
  | cons p a r l hp ha _ ih =>
    rw [List.reverse_cons]
    exact ih.snoc (adjPos_symm ha) hp

theorem Walk.append {m : Maze} {p q : Pos} {l1 : List Pos} (w1 : Walk m p q l1) :
    ∀ {t : Pos} {l2 : List Pos}, Walk m q t l2 → Walk m p t (l1 ++ l2.tail) := by
  induction w1 with
  | single p hp =>
    intro t l2 w2
    have h2 := w2.head_eq
    have hl : [p] ++ l2.tail = l2 := by
      cases l2 with
      | nil => simp at h2
      | cons a l =>
        simp only [List.head?_cons, Option.some.injEq] at h2
        simp [h2]
    rw [hl]
    exact w2
  | cons p a r l hp ha _ ih =>
    intro t l2 w2
    exact Walk.cons p a t _ hp ha (ih w2)

theorem Walk.mono {m m2 : Maze} (hf : ∀ x, floorAt m x → floorAt m2 x)
    {p q : Pos} {l : List Pos} (w : Walk m p q l) : Walk m2 p q l := by
  induction w with
  | single p hp => exact Walk.single p (hf p hp)
  | cons p a r l hp ha _ ih => exact Walk.cons p a r l (hf p hp) ha ih

theorem Walk.restrict {m m2 : Maze} {v : Pos}
    (hchg : ∀ x, x ≠ v → (floorAt m2 x ↔ floorAt m x))
    {p q : Pos} {l : List Pos} (w : Walk m2 p q l) (hv : v ∉ l) : Walk m p q l := by
  induction w with
  | single p hp =>
    refine Walk.single p ((hchg p ?_).mp hp)
    intro hpv
    exact hv (hpv ▸ List.mem_singleton_self p)
  | cons p a r l hp ha w ih =>
    refine Walk.cons p a r l ((hchg p ?_).mp hp) ha (ih ?_)
    · intro hpv
      exact hv (hpv ▸ List.mem_cons_self _ _)
    · intro hvl
      exact hv (List.mem_cons_of_mem p hvl)

theorem Walk.suffix {m : Maze} {p q : Pos} {l : List Pos} (w : Walk m p q l) :
    ∀ (l1 : List Pos) (x : Pos) (l2 : List Pos), l = l1 ++ x :: l2 →
      Walk m x q (x :: l2) := by
  induction w with
  | single p hp =>
    intro l1 x l2 he
    cases l1 with
    | nil =>
      simp only [List.nil_append, List.cons.injEq] at he
      obtain ⟨rfl, rfl⟩ := he
      exact Walk.single p hp
    | cons a l1 =>
      simp only [List.cons_append, List.cons.injEq] at he
      exact absurd he.2.symm (List.append_ne_nil_of_right_ne_nil l1 (List.cons_ne_nil x l2))
  | cons p a r l hp ha w ih =>
    intro l1 x l2 he
    cases l1 with
    | nil =>
      simp only [List.nil_append, List.cons.injEq] at he
      obtain ⟨rfl, rfl⟩ := he
      exact Walk.cons p a r l hp ha w
    | cons b l1 =>
      simp only [List.cons_append, List.cons.injEq] at he
      exact ih l1 x l2 he.2

theorem Walk.nodup_loop {m : Maze} {p : Pos} {l : List Pos} (w : Walk m p p l)
    (h : l.Nodup) : l = [p] := by
  cases w with
  | single _ _ => rfl
  | cons _ a r l hp ha w =>
    exfalso
    rw [List.nodup_cons] at h
    exact h.1 w.end_mem

theorem Walk.exists_nodup {m : Maze} {p q : Pos} {l : List Pos} (w : Walk m p q l) :
    ∃ l2, Walk m p q l2 ∧ l2.Nodup := by
  induction w with
  | single p hp => exact ⟨[p], Walk.single p hp, List.nodup_singleton p⟩
  | cons p a r l hp ha w ih =>
    obtain ⟨l2, w2, hnd2⟩ := ih
    by_cases hpl : p ∈ l2
    · obtain ⟨l1, l3, he⟩ := List.append_of_mem hpl
      refine ⟨p :: l3, w2.suffix l1 p l3 he, ?_⟩
      rw [he] at hnd2
      exact hnd2.of_append_right
    · exact ⟨p :: l2, Walk.cons p a r l2 hp ha w2, List.nodup_cons.mpr ⟨hpl, hnd2⟩⟩

/-- A duplicate-free walk through an interior vertex yields two
distinct floor neighbours of that vertex. -/
theorem Walk.mid_two_nbrs {m : Maze} {p q v : Pos} {l : List Pos} (w : Walk m p q l)
    (hnd : l.Nodup) (hv : v ∈ l) (hvp : v ≠ p) (hvq : v ≠ q) :
    ∃ a b, a ≠ b ∧ adjPos v a ∧ adjPos v b ∧ floorAt m a ∧ floorAt m b := by
  induction w with
  | single p hp =>
    rw [List.mem_singleton] at hv
    exact absurd hv hvp
  | cons p a r l hp ha w ih =>
    rcases List.mem_cons.mp hv with rfl | hvl
    · exact absurd rfl hvp
    · by_cases hva : v = a
      · subst hva
        cases w with
        | single _ _ => exact absurd rfl hvq
        | cons _ b r2 l2 hpv hab w2 =>
          refine ⟨p, b, ?_, adjPos_symm ha, hab, hp, w2.start_floor⟩
          intro hpb
          rw [List.nodup_cons] at hnd
          exact hnd.1 (hpb ▸ List.mem_cons_of_mem v w2.start_mem)
      · rw [List.nodup_cons] at hnd
        exact ih hnd.2 hvl hva hvq

/-- A duplicate-free walk into `v` decomposes as a walk to some
neighbour `u` of `v` followed by the final step into `v`. -/
theorem Walk.to_endpoint {m : Maze} {p v : Pos} {l : List Pos} (w : Walk m p v l)
    (hnd : l.Nodup) (hpv : p ≠ v) :
    ∃ l0 u, l = l0 ++ [v] ∧ adjPos u v ∧ floorAt m u ∧ Walk m p u l0 ∧
      v ∉ l0 ∧ l0.Nodup := by
  induction w with
  | single p hp => exact absurd rfl hpv
  | cons p a r l hp ha w ih =>
    rw [List.nodup_cons] at hnd
    by_cases hav : a = r
    · subst hav
      have hl : l = [a] := w.nodup_loop hnd.2
      subst hl
      exact ⟨[p], p, rfl, ha, hp, Walk.single p hp, fun hm => by
        rw [List.mem_singleton] at hm
        exact hpv hm.symm, List.nodup_singleton p⟩
    · obtain ⟨l0, u, he, hadj, hfu, w0, hv0, hnd0⟩ := ih hnd.2 hav
      refine ⟨p :: l0, u, by rw [he]; rfl, hadj, hfu, Walk.cons p a u l0 hp ha w0,
        ?_, List.nodup_cons.mpr ⟨fun hm => hnd.1 (he ▸ List.mem_append_left [r] hm), hnd0⟩⟩
      intro hm
      rcases List.mem_cons.mp hm with hm | hm
      · exact hpv hm.symm
      · exact hv0 hm

end Game

namespace Game

/-! ### Adding a pendant floor cell preserves connectivity and
uniqueness of simple paths

`m2` extends `m` by exactly one new floor cell `v` whose only floor
neighbour in `m2` is `u`.  Each carve step is two such extensions. -/

theorem addLeaf_floor_mono {m m2 : Maze} {v : Pos}
    (hchg : ∀ x, x ≠ v → (floorAt m2 x ↔ floorAt m x))
    (hvn : ¬floorAt m v) :
    ∀ x, floorAt m x → floorAt m2 x := by
  intro x hx
  have hxv : x ≠ v := fun he => hvn (he ▸ hx)
  exact (hchg x hxv).mpr hx

theorem addLeaf_not_mem {m2 : Maze} {v u : Pos}
    (hnbr : ∀ q, adjPos v q → floorAt m2 q → q = u)
    {p q : Pos} {l : List Pos} (w : Walk m2 p q l) (hnd : l.Nodup)
    (hp : p ≠ v) (hq : q ≠ v) : v ∉ l := by
  intro hvl
  obtain ⟨a, b, hab, hva, hvb, hfa, hfb⟩ :=
    w.mid_two_nbrs hnd hvl (fun hh => hp hh.symm) (fun hh => hq hh.symm)
  exact hab ((hnbr a hva hfa).trans (hnbr b hvb hfb).symm)

theorem addLeaf_unique_to_v {m m2 : Maze} {v u : Pos}
    (hchg : ∀ x, x ≠ v → (floorAt m2 x ↔ floorAt m x))
    (hnbr : ∀ q, adjPos v q → floorAt m2 q → q = u)
    (huniq : UniquePath m) :
    ∀ p l1 l2, p ≠ v → Walk m2 p v l1 → l1.Nodup → Walk m2 p v l2 → l2.Nodup →
      l1 = l2 := by
  intro p l1 l2 hp w1 h1 w2 h2
  obtain ⟨l01, u1, he1, hadj1, hfu1, w01, hv01, hnd01⟩ := w1.to_endpoint h1 hp
  obtain ⟨l02, u2, he2, hadj2, hfu2, w02, hv02, hnd02⟩ := w2.to_endpoint h2 hp
  have hu1 : u1 = u := hnbr u1 (adjPos_symm hadj1) hfu1
  have hu2 : u2 = u := hnbr u2 (adjPos_symm hadj2) hfu2
  rw [hu1] at w01
  rw [hu2] at w02
  have w01m : Walk m p u l01 := w01.restrict hchg hv01
  have w02m : Walk m p u l02 := w02.restrict hchg hv02
  rw [he1, he2, huniq p u l01 l02 w01m hnd01 w02m hnd02]

theorem addLeaf_unique {m m2 : Maze} {v u : Pos}
    (hchg : ∀ x, x ≠ v → (floorAt m2 x ↔ floorAt m x))
    (hnbr : ∀ q, adjPos v q → floorAt m2 q → q = u)
    (huniq : UniquePath m) : UniquePath m2 := by
  intro p q l1 l2 w1 h1 w2 h2
  by_cases hpv : p = v
  · by_cases hqv : q = v
    · have hq : q = p := by rw [hqv, hpv]
      subst hq
      rw [w1.nodup_loop h1, w2.nodup_loop h2]
    · have w1r : Walk m2 q v l1.reverse := by rw [← hpv]; exact w1.reverse
      have w2r : Walk m2 q v l2.reverse := by rw [← hpv]; exact w2.reverse
      have hrev := addLeaf_unique_to_v hchg hnbr huniq q l1.reverse l2.reverse hqv
        w1r (List.nodup_reverse.mpr h1) w2r (List.nodup_reverse.mpr h2)
      exact List.reverse_injective hrev
  · by_cases hqv : q = v
    · have w1v : Walk m2 p v l1 := by rw [← hqv]; exact w1
      have w2v : Walk m2 p v l2 := by rw [← hqv]; exact w2
      exact addLeaf_unique_to_v hchg hnbr huniq p l1 l2 hpv w1v h1 w2v h2
    · have hv1 : v ∉ l1 := addLeaf_not_mem hnbr w1 h1 hpv hqv
      have hv2 : v ∉ l2 := addLeaf_not_mem hnbr w2 h2 hpv hqv
      exact huniq p q l1 l2 (w1.restrict hchg hv1) h1 (w2.restrict hchg hv2) h2

theorem addLeaf_conn {m m2 : Maze} {v u : Pos}
    (hchg : ∀ x, x ≠ v → (floorAt m2 x ↔ floorAt m x))
    (hv2 : floorAt m2 v) (hvn : ¬floorAt m v) (hu : floorAt m u) (huv : adjPos u v)
    {s : Pos} (hconn : ConnFrom m s) : ConnFrom m2 s := by
  intro p hp
  by_cases hpv : p = v
  · subst hpv
    obtain ⟨l, wl⟩ := hconn u hu
    exact ⟨l ++ [p], (wl.mono (addLeaf_floor_mono hchg hvn)).snoc huv hv2⟩
  · obtain ⟨l, wl⟩ := hconn p ((hchg p hpv).mp hp)
    exact ⟨l, wl.mono (addLeaf_floor_mono hchg hvn)⟩

/-! ### Floor-cell characterizations -/

theorem rect_head_length {m : Maze} {w h : Nat} (hm : Rect m w h) (hh : 0 < h) :
    (m.headD []).length = w := by
  cases m with
  | nil =>
    exfalso
    have := hm.1
    simp at this
    omega
  | cons row t => exact hm.2 row (List.mem_cons_self _ _)

theorem is_inside_iff {m : Maze} {w h : Nat} (hm : Rect m w h) (hh : 0 < h)
    (x y : Int) :
    is_inside m x y = true ↔ (0 ≤ x ∧ x < (w : Int) ∧ 0 ≤ y ∧ y < (h : Int)) := by
  unfold is_inside
  rw [hm.1, rect_head_length hm hh]
  simp only [Bool.and_eq_true, decide_eq_true_eq]
  tauto

theorem floorAt_iff {m : Maze} {w h : Nat} (hm : Rect m w h) (hh : 0 < h) (p : Pos) :
    floorAt m p ↔ (0 ≤ p.1 ∧ p.1 < (w : Int) ∧ 0 ≤ p.2 ∧ p.2 < (h : Int) ∧
      cellAt m p.1 p.2 ≠ '#') := by
  unfold floorAt is_floor
  simp only [Bool.and_eq_true, bne_iff_ne, ne_eq, is_inside_iff hm hh]
  tauto

/-- Setting a non-wall character adds exactly that position to the
floor set. -/
theorem floorAt_setCell_iff {m : Maze} {w h : Nat} (hm : Rect m w h) (hh : 0 < h)
    {x y : Int} {c : Char} (hc : c ≠ '#') (hx0 : 0 ≤ x) (hx : x < (w : Int))
    (hy0 : 0 ≤ y) (hy : y < (h : Int)) (p : Pos) :
    floorAt (setCell m x y c) p ↔ (p = (x, y) ∨ floorAt m p) := by
  have hm2 : Rect (setCell m x y c) w h := rect_setCell hm x y c
  rw [floorAt_iff hm2 hh, floorAt_iff hm hh, cellAt_setCell]
  have hyl : y.toNat < m.length := by rw [hm.1]; omega
  have hxl : x.toNat < (m.getD y.toNat []).length := by
    rw [rect_row_length hm hyl]; omega
  constructor
  · intro hf
    by_cases hp : p = (x, y)
    · exact Or.inl hp
    · refine Or.inr ⟨hf.1, hf.2.1, hf.2.2.1, hf.2.2.2.1, ?_⟩
      have := hf.2.2.2.2
      rw [if_neg (fun hcc => hp (Prod.ext hcc.1 hcc.2.1))] at this
      exact this
  · intro hf
    rcases hf with rfl | hf
    · refine ⟨hx0, hx, hy0, hy, ?_⟩
      rw [if_pos ⟨rfl, rfl, hx0, hy0, hyl, hxl⟩]
      exact hc
    · refine ⟨hf.1, hf.2.1, hf.2.2.1, hf.2.2.2.1, ?_⟩
      by_cases hp : p.1 = x ∧ p.2 = y
      · rw [if_pos ⟨hp.1, hp.2, hx0, hy0, hyl, hxl⟩]
        exact hc
      · rw [if_neg (fun hcc => hp ⟨hcc.1, hcc.2.1⟩)]
        exact hf.2.2.2.2

theorem not_floorAt_of_wall {m : Maze} {p : Pos} (hw : cellAt m p.1 p.2 = '#') :
    ¬floorAt m p := by
  unfold floorAt is_floor
  simp only [Bool.and_eq_true, bne_iff_ne, ne_eq]
  intro hc
  exact hc.2 hw

end Game

namespace App

open Game

/-- Floors of the freshly started grid: only the start cell. -/
theorem initial_floor_eq {w h : Nat} (hh : 0 < h) {s : Pos}
    (hs0 : 0 ≤ s.1) (hsw : s.1 < (w : Int)) (hs0y : 0 ≤ s.2) (hsh : s.2 < (h : Int)) :
    ∀ p, floorAt (setCell (List.replicate h (List.replicate w '#')) s.1 s.2 ' ') p →
      p = s := by
  intro p hp
  rw [floorAt_iff (rect_setCell (rect_replicate w h) _ _ _) hh] at hp
  obtain ⟨h1, h2, h3, h4, h5⟩ := hp
  by_contra hne
  apply h5
  rw [cellAt_setCell]
  rw [if_neg (fun hcc => hne (Prod.ext hcc.1 hcc.2.1))]
  exact cellAt_replicate w h p.1 p.2

/-- The carve invariant at loop entry. -/
theorem carveInv_init {w h : Nat} {s : Pos} (hs : OddCell w h s) :
    CarveInv w h s
      (setCell (List.replicate h (List.replicate w '#')) s.1 s.2 ' ') [s] := by
  obtain ⟨hs1, hs2, hs3, hs4, hs5, hs6⟩ := hs
  have hh0 : 0 < h := by omega
  have hrect := rect_setCell (rect_replicate w h) s.1 s.2 ' '
  have hfl := initial_floor_eq (w := w) hh0 (s := s) (by omega) (by omega) (by omega)
    (by omega)
  have hyl : s.2.toNat < (List.replicate h (List.replicate w '#')).length := by
    simp only [List.length_replicate]
    omega
  have hxl : s.1.toNat <
      ((List.replicate h (List.replicate w '#')).getD s.2.toNat []).length := by
    rw [rect_row_length (rect_replicate w h) hyl]
    omega
  have hsf : floorAt (setCell (List.replicate h (List.replicate w '#')) s.1 s.2 ' ') s := by
    rw [floorAt_iff hrect hh0]
    refine ⟨by omega, by omega, by omega, by omega, ?_⟩
    rw [cellAt_setCell, if_pos ⟨rfl, rfl, by omega, by omega, hyl, hxl⟩]
    decide
  refine { rect := hrect, chars := ?_, start_cell := ⟨hs1, hs2, hs3, hs4, hs5, hs6⟩,
           start_floor := hsf, floor_int := ?_, wall_iso := ?_, conn := ?_,
           uniq := ?_, stack_ok := ?_, done_ok := ?_ }
  · intro xx yy
    rw [cellAt_setCell]
    split
    · exact Or.inr rfl
    · exact Or.inl (cellAt_replicate w h xx yy)
  · intro p hp
    rw [hfl p hp]
    exact ⟨hs3, hs4, hs5, hs6, by omega⟩
  · intro p hodd hpw q hadj hqf
    obtain ⟨hp1, hp2, _, _, _, _⟩ := hodd
    have hq := hfl q hqf
    subst hq
    unfold adjPos at hadj
    omega
  · intro p hp
    rw [hfl p hp]
    exact ⟨[s], Walk.single s hsf⟩
  · intro p q l1 l2 w1 h1 w2 h2
    have hp := hfl p w1.start_floor
    have hq := hfl q w1.end_floor
    subst hp
    have hq2 : q = p := hq
    subst hq2
    rw [w1.nodup_loop h1, w2.nodup_loop h2]
  · intro p hp
    rw [List.mem_singleton] at hp
    subst hp
    exact ⟨⟨hs1, hs2, hs3, hs4, hs5, hs6⟩, hsf⟩
  · intro p _ hfloor hnot
    exact absurd (by rw [hfl p hfloor]; exact List.mem_singleton_self s) hnot

/-- One carving step preserves the invariant: the opened wall cell and
the newly visited lattice cell are two pendant extensions of the floor
tree. -/
theorem carveInv_carve {w h : Nat} {s : Pos} {m : Maze} {x y : Int} {rest : List Pos}
    (inv : CarveInv w h s m ((x, y) :: rest))
    {c : Pos × Pos} (hc : c ∈ carve_nbrs m w h x y) :
    CarveInv w h s (setCell (setCell m (x + c.2.1) (y + c.2.2) ' ') c.1.1 c.1.2 ' ')
      (c.1 :: (x, y) :: rest) := by
  obtain ⟨hb1, hb2, hb3, hb4, hwall, hshape⟩ := carve_nbrs_mem hc
  obtain ⟨hxy_odd, hxy_floor⟩ := inv.stack_ok (x, y) (List.mem_cons_self _ _)
  obtain ⟨hox, hoy, hix1, hix2, hiy1, hiy2⟩ := hxy_odd
  have hoff : c.1.1 = x + 2 * c.2.1 ∧ c.1.2 = y + 2 * c.2.2 ∧
      (c.2.1).natAbs + (c.2.2).natAbs = 1 := by
    rcases hshape with hsh | hsh | hsh | hsh <;>
      (obtain ⟨e1, e2, e3, e4⟩ := hsh; exact ⟨by omega, by omega, by omega⟩)
  have hh0 : 0 < h := by omega
  have hcodd : OddCell w h c.1 :=
    ⟨by omega, by omega, by omega, by omega, by omega, by omega⟩
  have hcwallm : ¬floorAt m c.1 := not_floorAt_of_wall hwall
  have hbadj_a : adjPos (x, y) (x + c.2.1, y + c.2.2) := by
    unfold adjPos
    dsimp only
    omega
  have hbadj_c : adjPos (x + c.2.1, y + c.2.2) c.1 := by
    unfold adjPos
    dsimp only
    omega
  have hbwallm : ¬floorAt m (x + c.2.1, y + c.2.2) :=
    inv.wall_iso c.1 hcodd hcwallm _ (adjPos_symm hbadj_c)
  have hrect1 : Rect (setCell m (x + c.2.1) (y + c.2.2) ' ') w h :=
    rect_setCell inv.rect _ _ _
  have hrect2 : Rect (setCell (setCell m (x + c.2.1) (y + c.2.2) ' ')
      c.1.1 c.1.2 ' ') w h := rect_setCell hrect1 _ _ _
  have hfl1 : ∀ p, floorAt (setCell m (x + c.2.1) (y + c.2.2) ' ') p ↔
      (p = (x + c.2.1, y + c.2.2) ∨ floorAt m p) :=
    floorAt_setCell_iff inv.rect hh0 (by decide) (by omega) (by omega) (by omega)
      (by omega)
  have hfl2 : ∀ p, floorAt (setCell (setCell m (x + c.2.1) (y + c.2.2) ' ')
      c.1.1 c.1.2 ' ') p ↔
      (p = (c.1.1, c.1.2) ∨ floorAt (setCell m (x + c.2.1) (y + c.2.2) ' ') p) :=
    floorAt_setCell_iff hrect1 hh0 (by decide) (by omega) (by omega) (by omega)
      (by omega)
  have hchg1 : ∀ p, p ≠ (x + c.2.1, y + c.2.2) →
      (floorAt (setCell m (x + c.2.1) (y + c.2.2) ' ') p ↔ floorAt m p) := by
    intro p hp
    rw [hfl1 p]
    constructor
    · rintro (rfl | hf)
      · exact absurd rfl hp
      · exact hf
    · exact Or.inr
  have hchg2 : ∀ p, p ≠ c.1 →
      (floorAt (setCell (setCell m (x + c.2.1) (y + c.2.2) ' ') c.1.1 c.1.2 ' ') p ↔
        floorAt (setCell m (x + c.2.1) (y + c.2.2) ' ') p) := by
    intro p hp
    rw [hfl2 p]
    constructor
    · rintro (he | hf)
      · exact absurd he hp
      · exact hf
    · exact Or.inr
  have hb_floor1 : floorAt (setCell m (x + c.2.1) (y + c.2.2) ' ')
      (x + c.2.1, y + c.2.2) := (hfl1 _).mpr (Or.inl rfl)
  have hnbr1 : ∀ q, adjPos (x + c.2.1, y + c.2.2) q →
      floorAt (setCell m (x + c.2.1) (y + c.2.2) ' ') q → q = (x, y) := by
    intro q hadj hq
    rcases (hfl1 q).mp hq with rfl | hq
    · exact absurd hadj (by unfold adjPos; omega)
    · obtain ⟨hq1, hq2, hq3, hq4, hq5⟩ := inv.floor_int q hq
      have hqc : ¬(q.1 = c.1.1 ∧ q.2 = c.1.2) := by
        intro hco
        exact hcwallm (by
          have hqe : q = c.1 := Prod.ext hco.1 hco.2
          exact hqe ▸ hq)
      rw [Prod.ext_iff]
      unfold adjPos at hadj
      dsimp only at hadj
      omega
  have hcwall1 : ¬floorAt (setCell m (x + c.2.1) (y + c.2.2) ' ') c.1 := by
    rw [hfl1]
    rintro (he | hf)
    · have := hbadj_c
      rw [← he] at this
      exact absurd this (by unfold adjPos; omega)
    · exact hcwallm hf
  have hc_floor2 : floorAt (setCell (setCell m (x + c.2.1) (y + c.2.2) ' ')
      c.1.1 c.1.2 ' ') c.1 := (hfl2 _).mpr (Or.inl rfl)
  have hnbr2 : ∀ q, adjPos c.1 q →
      floorAt (setCell (setCell m (x + c.2.1) (y + c.2.2) ' ') c.1.1 c.1.2 ' ') q →
      q = (x + c.2.1, y + c.2.2) := by
    intro q hadj hq
    rcases (hfl2 q).mp hq with rfl | hq1
    · exact absurd hadj (by unfold adjPos; omega)
    · rcases (hfl1 q).mp hq1 with rfl | hqm
      · rfl
      · exact absurd hqm (inv.wall_iso c.1 hcodd hcwallm q hadj)
  have huniq1 : UniquePath (setCell m (x + c.2.1) (y + c.2.2) ' ') :=
    addLeaf_unique hchg1 hnbr1 inv.uniq
  have hconn1 : ConnFrom (setCell m (x + c.2.1) (y + c.2.2) ' ') s :=
    addLeaf_conn hchg1 hb_floor1 hbwallm hxy_floor hbadj_a inv.conn
  have huniq2 : UniquePath (setCell (setCell m (x + c.2.1) (y + c.2.2) ' ')
      c.1.1 c.1.2 ' ') := addLeaf_unique hchg2 hnbr2 huniq1
  have hconn2 : ConnFrom (setCell (setCell m (x + c.2.1) (y + c.2.2) ' ')
      c.1.1 c.1.2 ' ') s := by
    refine addLeaf_conn hchg2 ?_ hcwall1 hb_floor1 hbadj_c hconn1
    exact hc_floor2
  have hmono12 : ∀ p, floorAt m p →
      floorAt (setCell (setCell m (x + c.2.1) (y + c.2.2) ' ') c.1.1 c.1.2 ' ') p :=
    fun p hp => addLeaf_floor_mono hchg2 hcwall1 p (addLeaf_floor_mono hchg1 hbwallm p hp)
  refine { rect := hrect2, chars := ?_, start_cell := inv.start_cell,
           start_floor := hmono12 s inv.start_floor, floor_int := ?_, wall_iso := ?_,
           conn := hconn2, uniq := huniq2, stack_ok := ?_, done_ok := ?_ }
  · intro xx yy
    rw [cellAt_setCell]
    split
    · exact Or.inr rfl
    · rw [cellAt_setCell]
      split
      · exact Or.inr rfl
      · exact inv.chars xx yy
  · intro p hp
    rcases (hfl2 p).mp hp with rfl | hp1
    · exact ⟨by omega, by omega, by omega, by omega, by omega⟩
    · rcases (hfl1 p).mp hp1 with rfl | hpm
      · exact ⟨by omega, by omega, by omega, by omega, by omega⟩
      · exact inv.floor_int p hpm
  · intro p hodd hpw q hadj hqf
    have hpwm : ¬floorAt m p := fun hf => hpw (hmono12 p hf)
    rcases (hfl2 q).mp hqf with rfl | hq1
    · obtain ⟨hp1, hp2, _, _, _, _⟩ := hodd
      unfold adjPos at hadj
      omega
    · rcases (hfl1 q).mp hq1 with rfl | hqm
      · obtain ⟨hp1, hp2, hp3, hp4, hp5, hp6⟩ := hodd
        unfold adjPos at hadj
        dsimp only at hadj
        have hpor : (p.1 = x ∧ p.2 = y) ∨ (p.1 = c.1.1 ∧ p.2 = c.1.2) := by omega
        rcases hpor with hp | hp
        · refine hpw ?_
          have hpe : p = (x, y) := Prod.ext hp.1 hp.2
          rw [hpe]
          exact hmono12 _ hxy_floor
        · refine hpw ?_
          have hpe : p = c.1 := Prod.ext hp.1 hp.2
          rw [hpe]
          exact hc_floor2
      · exact inv.wall_iso p hodd hpwm q hadj hqm
  · intro p hp
    rcases List.mem_cons.mp hp with rfl | hp
    · exact ⟨hcodd, hc_floor2⟩
    · obtain ⟨ho, hf⟩ := inv.stack_ok p hp
      exact ⟨ho, hmono12 p hf⟩
  · intro p hodd hfloor hnot q hq hman haxis
    have hpc : p ≠ c.1 := fun he => hnot (he ▸ List.mem_cons_self _ _)
    have hpxy : p ≠ (x, y) :=
      fun he => hnot (he ▸ List.mem_cons_of_mem _ (List.mem_cons_self _ _))
    have hprest : p ∉ rest :=
      fun he => hnot (List.mem_cons_of_mem _ (List.mem_cons_of_mem _ he))
    have hpm : floorAt m p := by
      rcases (hfl2 p).mp hfloor with he | h1
      · exact absurd (by rw [he] : p = c.1) hpc
      · rcases (hfl1 p).mp h1 with he | h2
        · exfalso
          obtain ⟨hp1, hp2, _, _, _, _⟩ := hodd
          have hco := Prod.ext_iff.mp he
          dsimp only at hco
          omega
        · exact h2
    have hres := inv.done_ok p hodd hpm (by
      intro hmem
      rcases List.mem_cons.mp hmem with he | hmem2
      · exact hpxy he
      · exact hprest hmem2) q hq hman haxis
    exact hmono12 q hres

end App

namespace App

open Game

/-- Popping an exhausted cell preserves the invariant: a cell with no
carve candidates has all four in-range lattice neighbours already
opened. -/
theorem carveInv_pop {w h : Nat} {s : Pos} {m : Maze} {x y : Int} {rest : List Pos}
    (inv : CarveInv w h s m ((x, y) :: rest))
    (hnb : carve_nbrs m w h x y = []) : CarveInv w h s m rest := by
  obtain ⟨hxy_odd, hxy_floor⟩ := inv.stack_ok (x, y) (List.mem_cons_self _ _)
  obtain ⟨hox, hoy, hix1, hix2, hiy1, hiy2⟩ := hxy_odd
  have hh0 : 0 < h := by omega
  have hnone := List.filterMap_eq_nil_iff.mp hnb
  have hstep : ∀ q : Pos, OddCell w h q → manhattan (x, y) q = 2 →
      (q.1 = x ∨ q.2 = y) → floorAt m q := by
    intro q hq hman haxis
    obtain ⟨hq1, hq2, hq3, hq4, hq5, hq6⟩ := hq
    have hfour : (q.1 = x + 2 ∧ q.2 = y) ∨ (q.1 = x - 2 ∧ q.2 = y) ∨
        (q.1 = x ∧ q.2 = y + 2) ∨ (q.1 = x ∧ q.2 = y - 2) := by
      unfold manhattan at hman
      dsimp only at hman haxis
      omega
    have hcell : cellAt m q.1 q.2 ≠ '#' := by
      intro hce
      rcases hfour with hf | hf | hf | hf
      · have hd := hnone ((2 : Int), (0 : Int)) (by simp)
        simp only at hd
        split at hd
        · exact absurd hd (by simp)
        · next hcond =>
          apply hcond
          simp only [Bool.and_eq_true, decide_eq_true_eq, beq_iff_eq]
          refine ⟨⟨⟨⟨by omega, by omega⟩, by omega⟩, by omega⟩, ?_⟩
          rw [show x + 2 = q.1 by omega, show y + 0 = q.2 by omega]
          exact hce
      · have hd := hnone ((-2 : Int), (0 : Int)) (by simp)
        simp only at hd
        split at hd
        · exact absurd hd (by simp)
        · next hcond =>
          apply hcond
          simp only [Bool.and_eq_true, decide_eq_true_eq, beq_iff_eq]
          refine ⟨⟨⟨⟨by omega, by omega⟩, by omega⟩, by omega⟩, ?_⟩
          rw [show x + -2 = q.1 by omega, show y + 0 = q.2 by omega]
          exact hce
      · have hd := hnone ((0 : Int), (2 : Int)) (by simp)
        simp only at hd
        split at hd
        · exact absurd hd (by simp)
        · next hcond =>
          apply hcond
          simp only [Bool.and_eq_true, decide_eq_true_eq, beq_iff_eq]
          refine ⟨⟨⟨⟨by omega, by omega⟩, by omega⟩, by omega⟩, ?_⟩
          rw [show x + 0 = q.1 by omega, show y + 2 = q.2 by omega]
          exact hce
      · have hd := hnone ((0 : Int), (-2 : Int)) (by simp)
        simp only at hd
        split at hd
        · exact absurd hd (by simp)
        · next hcond =>
          apply hcond
          simp only [Bool.and_eq_true, decide_eq_true_eq, beq_iff_eq]
          refine ⟨⟨⟨⟨by omega, by omega⟩, by omega⟩, by omega⟩, ?_⟩
          rw [show x + 0 = q.1 by omega, show y + -2 = q.2 by omega]
          exact hce
    rw [floorAt_iff inv.rect hh0]
    exact ⟨by omega, by omega, by omega, by omega, hcell⟩
  refine { rect := inv.rect, chars := inv.chars, start_cell := inv.start_cell,
           start_floor := inv.start_floor, floor_int := inv.floor_int,
           wall_iso := inv.wall_iso, conn := inv.conn, uniq := inv.uniq,
           stack_ok := ?_, done_ok := ?_ }
  · intro p hp
    exact inv.stack_ok p (List.mem_cons_of_mem _ hp)
  · intro p hodd hfloor hnot q hq hman haxis
    by_cases hpxy : p = (x, y)
    · subst hpxy
      exact hstep q hq hman haxis
    · refine inv.done_ok p hodd hfloor ?_ q hq hman haxis
      intro hmem
      rcases List.mem_cons.mp hmem with he | hmem2
      · exact hpxy he
      · exact hnot hmem2

/-- The carve loop preserves the invariant down to the empty stack. -/
theorem carve_loop_inv {w h : Nat} {s : Pos} : ∀ (fuel : Nat) (r : RNG) (m : Maze)
    (stack : List Pos) (g : Maze) (r1 : RNG),
    CarveInv w h s m stack → carve_loop w h fuel r m stack = some (g, r1) →
    CarveInv w h s g [] := by
  intro fuel
  induction fuel with
  | zero =>
    intro r m stack g r1 _ hrun
    simp [carve_loop] at hrun
  | succ fuel ih =>
    intro r m stack g r1 inv hrun
    match stack with
    | [] =>
      rw [carve_loop] at hrun
      injection hrun with hrun
      injection hrun with h1 h2
      exact h1 ▸ inv
    | (x, y) :: rest =>
      cases hnb : carve_nbrs m w h x y with
      | nil =>
        rw [carve_loop_pop_eq fuel r m x y rest hnb] at hrun
        exact ih r m rest g r1 (carveInv_pop inv hnb) hrun
      | cons nb nbs =>
        rw [carve_loop_carve_eq fuel r m x y rest hnb] at hrun
        have hcm : (nb :: nbs).getD (r.seq r.pos % (nb :: nbs).length) nb ∈
            carve_nbrs m w h x y := by
          rw [hnb]
          exact getD_mem _ _ _ (List.mem_cons_self nb nbs)
        exact ih _ _ _ g r1 (carveInv_carve inv hcm) hrun

/-- At the empty stack, every lattice cell has been carved: the floor
spans the whole odd-coordinate lattice. -/
theorem carveInv_complete {w h : Nat} {s : Pos} {m : Maze}
    (inv : CarveInv w h s m []) :
    ∀ (n : Nat) (p : Pos), OddCell w h p → manhattan s p ≤ n → floorAt m p := by
  intro n
  induction n with
  | zero =>
    intro p hp hd
    have hps : p = s := by
      unfold manhattan at hd
      rw [Prod.ext_iff]
      omega
    exact hps ▸ inv.start_floor
  | succ n ih =>
    intro p hp hd
    obtain ⟨hp1, hp2, hp3, hp4, hp5, hp6⟩ := hp
    obtain ⟨hs1, hs2, hs3, hs4, hs5, hs6⟩ := inv.start_cell
    by_cases hps : p = s
    · exact hps ▸ inv.start_floor
    · have hne : p.1 ≠ s.1 ∨ p.2 ≠ s.2 := by
        by_contra hcon
        push_neg at hcon
        exact hps (Prod.ext hcon.1 hcon.2)
      have hstep : ∃ q : Pos, OddCell w h q ∧ manhattan s q + 2 = manhattan s p ∧
          manhattan q p = 2 ∧ (p.1 = q.1 ∨ p.2 = q.2) := by
        rcases hne with hne | hne
        · rcases lt_or_gt_of_ne hne with hlt | hlt
          · refine ⟨(p.1 + 2, p.2), ⟨by omega, by omega, by omega, by omega, by omega,
              by omega⟩, ?_, ?_, Or.inr rfl⟩
            · unfold manhattan
              dsimp only
              omega
            · unfold manhattan
              dsimp only
              omega
          · refine ⟨(p.1 - 2, p.2), ⟨by omega, by omega, by omega, by omega, by omega,
              by omega⟩, ?_, ?_, Or.inr rfl⟩
            · unfold manhattan
              dsimp only
              omega
            · unfold manhattan
              dsimp only
              omega
        · rcases lt_or_gt_of_ne hne with hlt | hlt
          · refine ⟨(p.1, p.2 + 2), ⟨by omega, by omega, by omega, by omega, by omega,
              by omega⟩, ?_, ?_, Or.inl rfl⟩
            · unfold manhattan
              dsimp only
              omega
            · unfold manhattan
              dsimp only
              omega
          · refine ⟨(p.1, p.2 - 2), ⟨by omega, by omega, by omega, by omega, by omega,
              by omega⟩, ?_, ?_, Or.inl rfl⟩
            · unfold manhattan
              dsimp only
              omega
            · unfold manhattan
              dsimp only
              omega
      obtain ⟨q, hq, hqd, hqp, haxis⟩ := hstep
      have hqfloor : floorAt m q := ih q hq (by omega)
      refine inv.done_ok q hq hqfloor (List.not_mem_nil q) p
        ⟨hp1, hp2, hp3, hp4, hp5, hp6⟩ ?_ ?_
      · unfold manhattan at hqp ⊢
        omega
      · omega

/-- With the invariant at the empty stack, any two floor cells are
joined by a duplicate-free walk. -/
theorem carveInv_connect {w h : Nat} {s : Pos} {m : Maze}
    (inv : CarveInv w h s m []) (p q : Pos)
    (hp : floorAt m p) (hq : floorAt m q) : ∃ l, Walk m p q l ∧ l.Nodup := by
  obtain ⟨lp, wp⟩ := inv.conn p hp
  obtain ⟨lq, wq⟩ := inv.conn q hq
  exact (wp.reverse.append wq).exists_nodup

end App

namespace App

open Game

/-- A successful `make_maze` run establishes the carve invariant with
an empty stack for some start cell. -/
theorem make_maze_carveInv (r : RNG) (w0 h0 : Nat) (g : Maze) (r1 : RNG)
    (hg : make_maze r w0 h0 = some (g, r1)) :
    ∃ s0, CarveInv (ensure_odd w0) (ensure_odd h0) s0 g [] := by
  obtain ⟨s, p⟩ := r
  by_cases hw : ensure_odd w0 / 2 = 0
  · exfalso
    have hr : randrange_odd (⟨s, p⟩ : RNG) (ensure_odd w0) = none := by
      unfold randrange_odd
      rw [if_pos hw]
    simp only [make_maze, hr] at hg
    exact absurd hg (by simp)
  · by_cases hh : ensure_odd h0 / 2 = 0
    · exfalso
      have hr2 : randrange_odd (⟨s, p + 1⟩ : RNG) (ensure_odd h0) = none := by
        unfold randrange_odd
        rw [if_pos hh]
      simp only [make_maze, randrange_odd_some s p hw, hr2] at hg
      exact absurd hg (by simp)
    · have hwodd := ensure_odd_mod w0
      have hhodd := ensure_odd_mod h0
      have hkx : s p % (ensure_odd w0 / 2) < ensure_odd w0 / 2 := Nat.mod_lt _ (by omega)
      have hky : s (p + 1) % (ensure_odd h0 / 2) < ensure_odd h0 / 2 :=
        Nat.mod_lt _ (by omega)
      have hsodd : OddCell (ensure_odd w0) (ensure_odd h0)
          (((1 + 2 * (s p % (ensure_odd w0 / 2)) : Nat) : Int),
           ((1 + 2 * (s (p + 1) % (ensure_odd h0 / 2)) : Nat) : Int)) := by
        refine ⟨?_, ?_, ?_, ?_, ?_, ?_⟩ <;> (dsimp only; omega)
      simp only [make_maze, randrange_odd_some s p hw,
        randrange_odd_some s (p + 1) hh] at hg
      exact ⟨_, carve_loop_inv _ _ _ _ g r1 (carveInv_init hsodd) hg⟩

end App

/-!
### Claim C1 — the generated maze is a spanning tree
-/

namespace Game

theorem getD_mem_of_lt {α : Type} {l : List α} {i : Nat} (d : α) (hi : i < l.length) :
    l.getD i d ∈ l := by
  rw [List.getD_eq_getElem?_getD, List.getElem?_eq_getElem hi]
  exact List.getElem_mem hi

theorem rshuffleF_subset {α : Type} : ∀ (n : Nat) (r : RNG) (l : List α) (x : α),
    x ∈ (rshuffleF n r l).1 → x ∈ l := by
  intro n
  induction n with
  | zero =>
    intro r l x hx
    cases l with
    | nil => simp [rshuffleF] at hx
    | cons a tl => simpa [rshuffleF] using hx
  | succ n ih =>
    intro r l x hx
    cases l with
    | nil => simp [rshuffleF] at hx
    | cons a tl =>
      rw [rshuffleF] at hx
      simp only at hx
      rcases List.mem_cons.mp hx with rfl | hx
      · exact getD_mem _ _ _ (List.mem_cons_self a tl)
      · exact List.mem_of_mem_eraseIdx (ih _ _ _ hx)

theorem rshuffle_subset {α : Type} (r : RNG) (l : List α) :
    ∀ x ∈ (rshuffle r l).1, x ∈ l :=
  fun x hx => rshuffleF_subset _ _ _ x hx

end Game

namespace App

open Game

/-- A carved maze has walls on its entire outer border. -/
theorem carveInv_border {w h : Nat} {s : Pos} {m : Maze}
    (inv : CarveInv w h s m []) : BorderWalls m w h := by
  have hh0 : 0 < h := by
    obtain ⟨_, _, _, _, h5, h6⟩ := inv.start_cell
    omega
  intro p h1 h2 h3 h4 hb
  rcases inv.chars p.1 p.2 with hc | hc
  · exact hc
  · exfalso
    have hf : floorAt m p := by
      rw [floorAt_iff inv.rect hh0]
      exact ⟨h1, h2, h3, h4, by rw [hc]; decide⟩
    obtain ⟨i1, i2, i3, i4, _⟩ := inv.floor_int p hf
    unfold OnBorder at hb
    omega

/-- Writing a floor character at a non-border cell keeps the border
walls intact. -/
theorem borderWalls_setCell {m : Maze} {w h : Nat} (hb : BorderWalls m w h)
    {x y : Int} (hnb : ¬OnBorder w h (x, y)) (c : Char) :
    BorderWalls (setCell m x y c) w h := by
  intro q h1 h2 h3 h4 hq
  rw [cellAt_setCell, if_neg ?_]
  · exact hb q h1 h2 h3 h4 hq
  · intro hcc
    apply hnb
    unfold OnBorder at hq ⊢
    dsimp only at hq ⊢
    omega

/-- A floor cell never lies on the border of a bordered maze. -/
theorem not_onBorder_of_floor {m : Maze} {w h : Nat} (hm : Rect m w h)
    (hh0 : 0 < h) (hb : BorderWalls m w h) {p : Pos} (hf : floorAt m p) :
    ¬OnBorder w h p := by
  intro hob
  rw [floorAt_iff hm hh0] at hf
  exact hf.2.2.2.2 (hb p hf.1 hf.2.1 hf.2.2.1 hf.2.2.2.1 hob)

/-- The player's walk loop stays off the border and preserves the
bordered rectangular shape of the maze. -/
theorem mip_go_border {w h : Nat} (dx dy : Int) : ∀ (steps : Nat) (m : Maze)
    (px py gold : Int), Rect m w h → BorderWalls m w h → ¬OnBorder w h (px, py) →
    ¬OnBorder w h ((mip_go dx dy steps m px py gold).1,
      (mip_go dx dy steps m px py gold).2.1) ∧
    Rect (mip_go dx dy steps m px py gold).2.2.2 w h ∧
    BorderWalls (mip_go dx dy steps m px py gold).2.2.2 w h := by
  intro steps
  induction steps with
  | zero =>
    intro m px py gold hm hb hp
    exact ⟨hp, hm, hb⟩
  | succ n ih =>
    intro m px py gold hm hb hp
    rw [mip_go]
    by_cases hblk : (!is_inside m (px + dx) (py + dy) ||
        cellAt m (px + dx) (py + dy) == '#') = true
    · rw [if_pos hblk]
      exact ⟨hp, hm, hb⟩
    · rw [if_neg hblk]
      simp only [Bool.or_eq_true, Bool.not_eq_true', beq_iff_eq, not_or] at hblk
      obtain ⟨hins, hwall⟩ := hblk
      rw [Bool.not_eq_false] at hins
      have hh0 : 0 < h := by
        unfold is_inside at hins
        simp only [Bool.and_eq_true, decide_eq_true_eq] at hins
        rw [hm.1] at hins
        omega
      rw [is_inside_iff hm hh0] at hins
      have htb : ¬OnBorder w h (px + dx, py + dy) := by
        intro hob
        exact hwall (hb _ hins.1 hins.2.1 hins.2.2.1 hins.2.2.2 hob)
      by_cases hgold : (cellAt m (px + dx) (py + dy) == 'G') = true
      · rw [if_pos hgold]
        exact ih _ _ _ _ (rect_setCell hm _ _ _) (borderWalls_setCell hb htb ' ') htb
      · rw [if_neg hgold]
        exact ih _ _ _ _ hm hb htb

/-- One monster step either stays put or lands on a floor cell. -/
theorem monster_step_one_spec (m : Maze) (occ : List Pos) (mx my : Int) (r : RNG) :
    (monster_step_one m occ mx my r).1 = (mx, my) ∨
      floorAt m (monster_step_one m occ mx my r).1 := by
  unfold monster_step_one
  cases hch : [((0 : Int), (1 : Int)), (0, -1), (1, 0), (-1, 0)].filterMap
      (fun d =>
        if is_inside m (mx + d.1) (my + d.2) && cellAt m (mx + d.1) (my + d.2) != '#'
            && !occ.contains (mx + d.1, my + d.2) then
          some (mx + d.1, my + d.2)
        else none) with
  | nil => exact Or.inl rfl
  | cons c cs =>
    right
    have hmem : (c :: cs).getD (r.seq r.pos % (c :: cs).length) c ∈ c :: cs :=
      getD_mem _ _ _ (List.mem_cons_self c cs)
    rw [← hch] at hmem
    rw [List.mem_filterMap] at hmem
    obtain ⟨d, _, hsome⟩ := hmem
    split at hsome
    · next hcond =>
      simp only [Bool.and_eq_true, bne_iff_ne, ne_eq] at hcond
      injection hsome with hv
      rw [hch] at hv
      show floorAt m ((c :: cs).getD (r.seq r.pos % (c :: cs).length) c)
      rw [← hv]
      unfold floorAt is_floor
      simp only [Bool.and_eq_true, bne_iff_ne, ne_eq]
      exact ⟨hcond.1.1, hcond.1.2⟩
    · exact absurd hsome (by simp)

/-- Every position produced by the monster loop is either carried over
from the accumulator or a single monster step of a listed monster. -/
theorem sm_go_mem {m : Maze} {px py : Int} {monsters : List Pos} :
    ∀ (order : List Nat) (occ acc : List Pos) (pen : Int) (r : RNG) (q : Pos),
    (∀ i ∈ order, i < monsters.length) →
    q ∈ (sm_go m px py monsters order occ acc pen r).1.1 →
    q ∈ acc ∨ ∃ (mp : Pos) (occ2 : List Pos) (r2 : RNG), mp ∈ monsters ∧
      q = (monster_step_one m occ2 mp.1 mp.2 r2).1 := by
  intro order
  induction order with
  | nil =>
    intro occ acc pen r q _ hq
    exact Or.inl hq
  | cons i rest ih =>
    intro occ acc pen r q hlt hq
    rw [sm_go] at hq
    rcases ih _ _ _ _ q (fun j hj => hlt j (List.mem_cons_of_mem i hj)) hq
      with hq | hq
    · rcases List.mem_append.mp hq with hq | hq
      · exact Or.inl hq
      · rw [List.mem_singleton] at hq
        refine Or.inr ⟨monsters.getD i (0, 0), occ, r, ?_, hq⟩
        exact getD_mem_of_lt (0, 0) (hlt i (List.mem_cons_self i rest))
    · exact Or.inr hq

/-- `step_monsters` keeps monsters on floor cells (or where they
stood): every new position is an old position or a floor cell. -/
theorem step_monsters_spec (m : Maze) (monsters : List Pos) (px py : Int) (r : RNG) :
    ∀ q ∈ (step_monsters m monsters px py r).1.1,
      q ∈ monsters ∨ floorAt m q := by
  intro q hq
  unfold step_monsters at hq
  have horder : ∀ i ∈ (rshuffle r (List.range monsters.length)).1,
      i < monsters.length := by
    intro i hi
    have := rshuffle_subset r (List.range monsters.length) i hi
    exact List.mem_range.mp this
  rcases sm_go_mem _ _ _ _ _ q horder hq with hq | ⟨mp, occ2, r2, hmp, hqe⟩
  · exact absurd hq (List.not_mem_nil q)
  · rcases monster_step_one_spec m occ2 mp.1 mp.2 r2 with hcase | hcase
    · left
      rw [hqe, hcase]
      exact hmp
    · right
      rw [hqe]
      exact hcase

end App

namespace App

open Game

theorem ensure_odd_pos (n : Nat) : 1 ≤ ensure_odd n := by
  unfold ensure_odd
  split
  · omega
  · split <;> omega

end App

/-!
### Claim C10 — border cells are walls; entities never reach the border
-/

namespace Game

/-! ### Stream equivalence: the engine only consumes draws forward -/

theorem SL.head {r r2 : RNG} (h : SL r r2) : r.seq r.pos = r2.seq r2.pos := by
  have h0 := h 0
  simpa using h0

theorem SL.tail {r r2 : RNG} (h : SL r r2) :
    SL ⟨r.seq, r.pos + 1⟩ ⟨r2.seq, r2.pos + 1⟩ := by
  intro i
  have h1 := h (1 + i)
  rw [show r.pos + (1 + i) = r.pos + 1 + i by omega,
    show r2.pos + (1 + i) = r2.pos + 1 + i by omega] at h1
  exact h1

theorem rchoice_SL {α : Type} {r r2 : RNG} (h : SL r r2) (l : List α) :
    ORel (rchoice r l) (rchoice r2 l) := by
  cases l with
  | nil => trivial
  | cons a tl =>
    unfold rchoice
    simp only [RNG.next]
    exact ⟨by rw [h.head], h.tail⟩

theorem rshuffleF_SL {α : Type} : ∀ (n : Nat) (r r2 : RNG) (l : List α), SL r r2 →
    (rshuffleF n r l).1 = (rshuffleF n r2 l).1 ∧
    SL (rshuffleF n r l).2 (rshuffleF n r2 l).2 := by
  intro n
  induction n with
  | zero =>
    intro r r2 l h
    cases l with
    | nil => exact ⟨rfl, h⟩
    | cons a tl => exact ⟨rfl, h⟩
  | succ n ih =>
    intro r r2 l h
    cases l with
    | nil => exact ⟨rfl, h⟩
    | cons a tl =>
      rw [rshuffleF, rshuffleF]
      simp only [RNG.next, h.head]
      obtain ⟨h1, h2⟩ := ih ⟨r.seq, r.pos + 1⟩ ⟨r2.seq, r2.pos + 1⟩
        ((a :: tl).eraseIdx (r2.seq r2.pos % (a :: tl).length)) h.tail
      exact ⟨by rw [h1], h2⟩

theorem rshuffle_SL {α : Type} {r r2 : RNG} (h : SL r r2) (l : List α) :
    (rshuffle r l).1 = (rshuffle r2 l).1 ∧ SL (rshuffle r l).2 (rshuffle r2 l).2 :=
  rshuffleF_SL l.length r r2 l h

end Game

namespace App

open Game

theorem sum_randints_SL : ∀ (n : Nat) {r r2 : RNG}, SL r r2 →
    (sum_randints n r).1 = (sum_randints n r2).1 ∧
    SL (sum_randints n r).2 (sum_randints n r2).2 := by
  intro n
  induction n with
  | zero => intro r r2 h; exact ⟨rfl, h⟩
  | succ n ih =>
    intro r r2 h
    rw [sum_randints, sum_randints]
    simp only [randint35, RNG.next, h.head]
    obtain ⟨h1, h2⟩ := ih h.tail
    exact ⟨by rw [h1], h2⟩

theorem carve_loop_SL {w h : Nat} : ∀ (fuel : Nat) (r r2 : RNG) (m : Maze)
    (stack : List Pos), SL r r2 →
    ORel (carve_loop w h fuel r m stack) (carve_loop w h fuel r2 m stack) := by
  intro fuel
  induction fuel with
  | zero => intro r r2 m stack _; trivial
  | succ fuel ih =>
    intro r r2 m stack hsl
    match stack with
    | [] =>
      rw [carve_loop, carve_loop]
      exact ⟨rfl, hsl⟩
    | (x, y) :: rest =>
      cases hnb : carve_nbrs m w h x y with
      | nil =>
        rw [carve_loop_pop_eq fuel r m x y rest hnb,
          carve_loop_pop_eq fuel r2 m x y rest hnb]
        exact ih r r2 m rest hsl
      | cons nb nbs =>
        rw [carve_loop_carve_eq fuel r m x y rest hnb,
          carve_loop_carve_eq fuel r2 m x y rest hnb]
        rw [hsl.head]
        exact ih _ _ _ _ hsl.tail

theorem make_maze_SL {r r2 : RNG} (h : SL r r2) (w0 h0 : Nat) :
    ORel (make_maze r w0 h0) (make_maze r2 w0 h0) := by
  by_cases hw : ensure_odd w0 / 2 = 0
  · have hr : randrange_odd r (ensure_odd w0) = none := by
      unfold randrange_odd
      rw [if_pos hw]
    have hr2 : randrange_odd r2 (ensure_odd w0) = none := by
      unfold randrange_odd
      rw [if_pos hw]
    simp only [make_maze, hr, hr2]
    trivial
  · obtain ⟨s, p⟩ := r
    obtain ⟨s2, p2⟩ := r2
    by_cases hh : ensure_odd h0 / 2 = 0
    · have hr : randrange_odd (⟨s, p + 1⟩ : RNG) (ensure_odd h0) = none := by
        unfold randrange_odd
        rw [if_pos hh]
      have hr2 : randrange_odd (⟨s2, p2 + 1⟩ : RNG) (ensure_odd h0) = none := by
        unfold randrange_odd
        rw [if_pos hh]
      simp only [make_maze, randrange_odd_some s p hw, randrange_odd_some s2 p2 hw,
        hr, hr2]
      trivial
    · simp only [make_maze, randrange_odd_some s p hw, randrange_odd_some s2 p2 hw,
        randrange_odd_some s (p + 1) hh, randrange_odd_some s2 (p2 + 1) hh]
      have hv0 : s p = s2 p2 := h.head
      have hv1 : s (p + 1) = s2 (p2 + 1) := SL.head h.tail
      rw [hv0, hv1]
      exact carve_loop_SL _ _ _ _ _ (SL.tail h.tail)

theorem init_loop_SL (params : LevelParams) : ∀ (fuel : Nat) (r r2 : RNG),
    SL r r2 → ORel (init_loop params fuel r) (init_loop params fuel r2) := by
  intro fuel
  induction fuel with
  | zero => intro r r2 _; trivial
  | succ fuel ih =>
    intro r r2 h
    have hmm := make_maze_SL h params.w params.h
    cases hm1 : make_maze r params.w params.h with
    | none =>
      cases hm2 : make_maze r2 params.w params.h with
      | none =>
        rw [init_loop, init_loop, hm1, hm2]
        trivial
      | some q =>
        rw [hm1, hm2] at hmm
        exact absurd hmm (by unfold ORel; simp)
    | some pq =>
      cases hm2 : make_maze r2 params.w params.h with
      | none =>
        rw [hm1, hm2] at hmm
        exact absurd hmm (by unfold ORel; simp)
      | some q =>
        rw [hm1, hm2] at hmm
        obtain ⟨hmaze, hsl1⟩ := hmm
        obtain ⟨maze, ra⟩ := pq
        obtain ⟨maze2, rb⟩ := q
        simp only at hmaze hsl1
        subst hmaze
        rw [init_loop, init_loop, hm1, hm2]
        simp only
        by_cases hfl : (find_all_floor maze).length < 5
        · rw [if_pos hfl, if_pos hfl]
          exact ih ra rb hsl1
        · rw [if_neg hfl, if_neg hfl]
          have hch1 := rchoice_SL hsl1 (find_all_floor maze)
          cases hs1 : rchoice ra (find_all_floor maze) with
          | none =>
            cases hs2 : rchoice rb (find_all_floor maze) with
            | none => trivial
            | some q2 =>
              rw [hs1, hs2] at hch1
              exact absurd hch1 (by unfold ORel; simp)
          | some p1 =>
            cases hs2 : rchoice rb (find_all_floor maze) with
            | none =>
              rw [hs1, hs2] at hch1
              exact absurd hch1 (by unfold ORel; simp)
            | some q2 =>
              rw [hs1, hs2] at hch1
              obtain ⟨start, ra2⟩ := p1
              obtain ⟨start2, rb2⟩ := q2
              obtain ⟨hstart, hsl2⟩ := hch1
              simp only at hstart hsl2
              subst hstart
              simp only
              have hch2 := rchoice_SL hsl2 (find_all_floor maze)
              cases he1 : rchoice ra2 (find_all_floor maze) with
              | none =>
                cases he2 : rchoice rb2 (find_all_floor maze) with
                | none => trivial
                | some q3 =>
                  rw [he1, he2] at hch2
                  exact absurd hch2 (by unfold ORel; simp)
              | some p3 =>
                cases he2 : rchoice rb2 (find_all_floor maze) with
                | none =>
                  rw [he1, he2] at hch2
                  exact absurd hch2 (by unfold ORel; simp)
                | some q3 =>
                  rw [he1, he2] at hch2
                  obtain ⟨ec, ra3⟩ := p3
                  obtain ⟨ec2, rb3⟩ := q3
                  obtain ⟨hec, hsl3⟩ := hch2
                  simp only at hec hsl3
                  subst hec
                  simp only
                  by_cases hman : manhattan start ec < params.w / 2
                  · rw [if_pos hman, if_pos hman]
                    exact ih ra3 rb3 hsl3
                  · rw [if_neg hman, if_neg hman]
                    obtain ⟨hsh1, hsl4⟩ := rshuffle_SL hsl3
                      ((find_all_floor maze).filter fun c => c != start && c != ec)
                    rw [hsh1]
                    obtain ⟨hsh2, hsl5⟩ := rshuffle_SL hsl4
                      ((rshuffle rb3 ((find_all_floor maze).filter
                        fun c => c != start && c != ec)).1.filter
                          fun c => !((rshuffle rb3 ((find_all_floor maze).filter
                            fun c => c != start && c != ec)).1.take
                              params.gold_total).contains c)
                    rw [hsh2]
                    exact ⟨rfl, hsl5⟩

end App

namespace Game

/-! ### Membership facts for the placement draws -/

theorem rchoice_mem {α : Type} {r : RNG} {l : List α} {a : α} {r1 : RNG}
    (h : rchoice r l = some (a, r1)) : a ∈ l := by
  cases l with
  | nil => exact Option.noConfusion h
  | cons b tl =>
    unfold rchoice at h
    simp only [RNG.next] at h
    have h2 := Option.some.inj h
    have h3 : (b :: tl).getD (r.seq r.pos % (b :: tl).length) b = a :=
      congrArg Prod.fst h2
    rw [← h3]
    exact getD_mem _ _ _ (List.mem_cons_self b tl)

theorem find_all_floor_mem {m : Maze} {p : Pos} (hp : p ∈ find_all_floor m) :
    is_inside m p.1 p.2 = true ∧ cellAt m p.1 p.2 ≠ '#' := by
  unfold find_all_floor at hp
  rw [List.mem_flatMap] at hp
  obtain ⟨y, hy, hp2⟩ := hp
  rw [List.mem_filterMap] at hp2
  obtain ⟨x, hx, hif⟩ := hp2
  rw [List.mem_range] at hy hx
  by_cases hc : ((m.getD y []).getD x '#' != '#') = true
  · rw [if_pos hc] at hif
    have hpx : p = ((x : Int), (y : Int)) := (Option.some.inj hif).symm
    subst hpx
    have htx : ((x : Int)).toNat = x := by omega
    have hty : ((y : Int)).toNat = y := by omega
    constructor
    · show is_inside m (x : Int) (y : Int) = true
      unfold is_inside
      simp only [Bool.and_eq_true, decide_eq_true_eq]
      exact ⟨⟨⟨by omega, by omega⟩, by omega⟩, by omega⟩
    · show cellAt m (x : Int) (y : Int) ≠ '#'
      have hcc : cellAt m (x : Int) (y : Int) = (m.getD y []).getD x '#' := by
        unfold cellAt
        rw [if_pos (by simp)]
        rw [htx, hty]
      rw [hcc]
      exact bne_iff_ne.mp hc
  · rw [if_neg hc] at hif
    exact Option.noConfusion hif

theorem setCell_length (m : Maze) (x y : Int) (c : Char) :
    (setCell m x y c).length = m.length := by
  unfold setCell
  split
  · simp
  · rfl

theorem setCell_headD_length (m : Maze) (x y : Int) (c : Char) :
    ((setCell m x y c).headD []).length = (m.headD []).length := by
  unfold setCell
  split
  · cases m with
    | nil => rfl
    | cons a tl =>
      cases hy : y.toNat with
      | zero => simp
      | succ n => simp
  · rfl

theorem is_inside_setCell (m : Maze) (x y : Int) (c : Char) (x1 y1 : Int) :
    is_inside (setCell m x y c) x1 y1 = is_inside m x1 y1 := by
  unfold is_inside
  rw [setCell_length, setCell_headD_length]

theorem not_mem_of_not_contains {α : Type} [BEq α] [LawfulBEq α] {l : List α}
    {a : α} (h : (!l.contains a) = true) : a ∉ l := by
  simp at h
  exact h

end Game

namespace App

open Game

theorem mark_gold_cellAt : ∀ (gps : List Pos) (m : Maze) (p : Pos), p ∉ gps →
    cellAt (mark_gold m gps) p.1 p.2 = cellAt m p.1 p.2 := by
  intro gps
  induction gps with
  | nil => intro m p _; rfl
  | cons g rest ih =>
    intro m p hp
    rw [mark_gold]
    rw [ih _ _ (fun hc => hp (List.mem_cons_of_mem g hc))]
    have hne : p ≠ g := fun he => hp (he ▸ List.mem_cons_self g rest)
    exact cellAt_setCell_ne 'G' (fun hc => hne (Prod.ext hc.1 hc.2))

theorem is_inside_mark_gold : ∀ (gps : List Pos) (m : Maze) (x1 y1 : Int),
    is_inside (mark_gold m gps) x1 y1 = is_inside m x1 y1 := by
  intro gps
  induction gps with
  | nil => intro m x1 y1; rfl
  | cons g rest ih =>
    intro m x1 y1
    rw [mark_gold, ih, is_inside_setCell]

/-- What `init_level`'s success branch builds: marking gold away from
`p` and `ec` and opening the exit keeps `p` and `ec` passable, makes
the exit cell `' '`, and leaves `p`'s cell untouched. -/
theorem placed_maze_facts {maze : Maze} {p ec : Pos} {gps : List Pos}
    (hchars : ∀ x y : Int, cellAt maze x y = '#' ∨ cellAt maze x y = ' ')
    (hp_mem : p ∈ find_all_floor maze) (hec_mem : ec ∈ find_all_floor maze)
    (hp_ne : p ≠ ec) (hp_gps : p ∉ gps) (hec_gps : ec ∉ gps) :
    floorAt (setCell (mark_gold maze gps) ec.1 ec.2 ' ') p ∧
    floorAt (setCell (mark_gold maze gps) ec.1 ec.2 ' ') ec ∧
    cellAt (setCell (mark_gold maze gps) ec.1 ec.2 ' ') ec.1 ec.2 = ' ' ∧
    cellAt (setCell (mark_gold maze gps) ec.1 ec.2 ' ') p.1 p.2 =
      cellAt maze p.1 p.2 := by
  have hins : ∀ x1 y1 : Int,
      is_inside (setCell (mark_gold maze gps) ec.1 ec.2 ' ') x1 y1 =
        is_inside maze x1 y1 := by
    intro x1 y1
    rw [is_inside_setCell, is_inside_mark_gold]
  obtain ⟨hpi, hpc⟩ := find_all_floor_mem hp_mem
  obtain ⟨hei, hecc⟩ := find_all_floor_mem hec_mem
  have hcp : cellAt (setCell (mark_gold maze gps) ec.1 ec.2 ' ') p.1 p.2 =
      cellAt maze p.1 p.2 := by
    rw [cellAt_setCell_ne ' ' (fun hc => hp_ne (Prod.ext hc.1 hc.2)),
      mark_gold_cellAt gps maze p hp_gps]
  have hce : cellAt (setCell (mark_gold maze gps) ec.1 ec.2 ' ') ec.1 ec.2 = ' ' := by
    rw [cellAt_setCell]
    split
    · rfl
    · rw [mark_gold_cellAt gps maze ec hec_gps]
      rcases hchars ec.1 ec.2 with hc | hc
      · exact absurd hc hecc
      · exact hc
  refine ⟨?_, ?_, hce, hcp⟩
  · unfold floorAt is_floor
    rw [hins p.1 p.2, hpi, hcp, Bool.true_and]
    exact bne_iff_ne.mpr hpc
  · unfold floorAt is_floor
    rw [hins ec.1 ec.2, hei, hce, Bool.true_and]
    rfl

theorem compute_level_params_w_eq (r : RNG) (level : Nat) :
    (compute_level_params r level).1.w = ensure_odd (19 + (level - 1) / 3 * 2) := rfl

theorem ensure_odd_odd_self {n : Nat} (h : n % 2 = 1) : ensure_odd n = n := by
  unfold ensure_odd
  rw [if_pos h]

theorem compute_level_params_w_ge (r : RNG) (level : Nat) :
    19 ≤ (compute_level_params r level).1.w := by
  rw [compute_level_params_w_eq]
  rw [ensure_odd_odd_self (by omega)]
  omega

/-- Postconditions of every `init_loop` success, by induction over the
retry fuel and analysis of the success branch. -/
theorem init_loop_post (params : LevelParams) (hw2 : 2 ≤ params.w) :
    ∀ (fuel : Nat) (r : RNG) (d : LevelData) (r1 : RNG),
    init_loop params fuel r = some (d, r1) →
    d.gold_collected = 0 ∧
    (d.px, d.py) ≠ d.exit_xy ∧
    floorAt d.maze (d.px, d.py) ∧
    floorAt d.maze d.exit_xy ∧
    params.w / 2 ≤ manhattan (d.px, d.py) d.exit_xy ∧
    cellAt d.maze d.exit_xy.1 d.exit_xy.2 ≠ 'G' ∧
    ∀ mp ∈ d.monsters, mp ≠ (d.px, d.py) ∧ mp ≠ d.exit_xy ∧
      cellAt d.maze mp.1 mp.2 ≠ 'G' := by
  intro fuel
  induction fuel with
  | zero => intro r d r1 h; exact Option.noConfusion h
  | succ fuel ih =>
    intro r d r1 h
    rw [init_loop] at h
    cases hm : make_maze r params.w params.h with
    | none => rw [hm] at h; exact Option.noConfusion h
    | some pq =>
      obtain ⟨maze, r2⟩ := pq
      rw [hm] at h
      simp only at h
      by_cases hfl : (find_all_floor maze).length < 5
      · rw [if_pos hfl] at h
        exact ih _ _ _ h
      · rw [if_neg hfl] at h
        cases hs : rchoice r2 (find_all_floor maze) with
        | none => rw [hs] at h; exact Option.noConfusion h
        | some p1 =>
          obtain ⟨start, r3⟩ := p1
          rw [hs] at h
          simp only at h
          cases he : rchoice r3 (find_all_floor maze) with
          | none => rw [he] at h; exact Option.noConfusion h
          | some p2 =>
            obtain ⟨ec, r4⟩ := p2
            rw [he] at h
            simp only at h
            by_cases hman : manhattan start ec < params.w / 2
            · rw [if_pos hman] at h
              exact ih _ _ _ h
            · rw [if_neg hman] at h
              injection h with h2
              injection h2 with h3 h4
              subst h3
              obtain ⟨s0, inv⟩ := make_maze_carveInv r params.w params.h maze r2 hm
              have hchars := inv.chars
              have hstart_mem : start ∈ find_all_floor maze := rchoice_mem hs
              have hec_mem : ec ∈ find_all_floor maze := rchoice_mem he
              have hse : start ≠ ec := by
                intro hq
                subst hq
                have hmm0 : manhattan start start = 0 := by simp [manhattan]
                omega
              have hstart_gps : start ∉ (rshuffle r4 ((find_all_floor maze).filter
                  fun c => c != start && c != ec)).1.take params.gold_total := by
                intro hc
                have h5 := rshuffle_subset _ _ start (List.take_subset _ _ hc)
                rw [List.mem_filter] at h5
                have h6 := h5.2
                rw [Bool.and_eq_true, bne_iff_ne] at h6
                exact h6.1 rfl
              have hec_gps : ec ∉ (rshuffle r4 ((find_all_floor maze).filter
                  fun c => c != start && c != ec)).1.take params.gold_total := by
                intro hc
                have h5 := rshuffle_subset _ _ ec (List.take_subset _ _ hc)
                rw [List.mem_filter] at h5
                have h6 := h5.2
                rw [Bool.and_eq_true, bne_iff_ne, bne_iff_ne] at h6
                exact h6.2 rfl
              obtain ⟨hfs, hfe, hce, _⟩ :=
                placed_maze_facts hchars hstart_mem hec_mem hse hstart_gps hec_gps
              dsimp only
              refine ⟨rfl, ?_, ?_, ?_, ?_, ?_, ?_⟩
              · exact hse
              · exact hfs
              · exact hfe
              · exact Nat.le_of_not_lt hman
              · rw [hce]
                decide
              · intro mp hmp
                have h1 := rshuffle_subset _ _ mp (List.take_subset _ _ hmp)
                rw [List.mem_filter] at h1
                obtain ⟨h2b, hng⟩ := h1
                have h3b := rshuffle_subset _ _ mp h2b
                rw [List.mem_filter] at h3b
                obtain ⟨hmp_fl, hcond⟩ := h3b
                rw [Bool.and_eq_true, bne_iff_ne, bne_iff_ne] at hcond
                obtain ⟨hmp_ns, hmp_ne⟩ := hcond
                obtain ⟨_, _, _, hcmp⟩ := placed_maze_facts hchars hmp_fl hec_mem
                  hmp_ne (not_mem_of_not_contains hng) hec_gps
                obtain ⟨_, hmpc⟩ := find_all_floor_mem hmp_fl
                refine ⟨hmp_ns, hmp_ne, ?_⟩
                rw [hcmp]
                rcases hchars mp.1 mp.2 with hc | hc
                · exact absurd hc hmpc
                · rw [hc]
                  decide

theorem init_level_gc_zero (fuel : Nat) (r : RNG) (level : Nat) (d : LevelData)
    (r1 : RNG) (h : init_level fuel r level = some (d, r1)) :
    d.gold_collected = 0 := by
  have h2 : init_loop (compute_level_params r level).1 fuel
      (compute_level_params r level).2 = some (d, r1) := h
  exact (init_loop_post (compute_level_params r level).1
    (by have := compute_level_params_w_ge r level; omega) fuel
    (compute_level_params r level).2 d r1 h2).1

theorem load_level_gc_zero (fuel : Nat) (r : RNG) (st : GameState) (level : Nat)
    (st2 : GameState) (r2 : RNG) (h : load_level fuel r st level = some (st2, r2)) :
    st2.gold_collected = 0 := by
  unfold load_level at h
  cases hinit : init_level fuel r level with
  | none => rw [hinit] at h; exact Option.noConfusion h
  | some p =>
    obtain ⟨d, r1⟩ := p
    rw [hinit] at h
    simp only at h
    injection h with h2
    injection h2 with h3 h4
    rw [← h3]
    exact init_level_gc_zero fuel r level d r1 hinit

theorem pm_move_gc_nonneg (speed dx dy : Int) (st : GameState) :
    0 ≤ (pm_move speed dx dy st).gold_collected := by
  unfold pm_move
  simp only
  exact le_max_left 0 _

theorem pm_monsters_gc_nonneg (r : RNG) (st : GameState)
    (h : 0 ≤ st.gold_collected) : 0 ≤ (pm_monsters r st).1.gold_collected := by
  unfold pm_monsters
  simp only
  split
  · exact le_max_left 0 _
  · exact h

theorem pm_pickup_gc_nonneg (st : GameState) (h : 0 ≤ st.gold_collected) :
    0 ≤ (pm_pickup st).gold_collected := by
  unfold pm_pickup
  split
  · simp only
    omega
  · exact h

theorem pm_win_gc_nonneg (fuel : Nat) (r : RNG) (st st2 : GameState) (r2 : RNG)
    (h0 : 0 ≤ st.gold_collected) (h : pm_win fuel r st = some (st2, r2)) :
    0 ≤ st2.gold_collected := by
  unfold pm_win at h
  split at h
  · split at h
    · injection h with h2
      injection h2 with h3 h4
      rw [← h3]
      exact h0
    · rw [load_level_gc_zero _ _ _ _ _ _ h]
  · injection h with h2
    injection h2 with h3 h4
    rw [← h3]
    exact h0

theorem pm_steps_check_gc (oldExit : Pos) (st : GameState) :
    (pm_steps_check oldExit st).gold_collected = st.gold_collected := by
  unfold pm_steps_check
  split
  · split
    · rfl
    · rfl
  · rfl

theorem process_move_gc_nonneg (fuel : Nat) (r : RNG) (dx dy speed : Int)
    (st st2 : GameState) (r2 : RNG) (h0 : 0 ≤ st.gold_collected)
    (h : process_move fuel r dx dy speed st = some (st2, r2)) :
    0 ≤ st2.gold_collected := by
  unfold process_move at h
  split at h
  · injection h with h2
    injection h2 with h3 h4
    rw [← h3]
    exact h0
  · simp only at h
    cases hw2 : pm_win fuel (pm_monsters r (pm_move speed dx dy st)).2
        (pm_pickup (pm_monsters r (pm_move speed dx dy st)).1) with
    | none => rw [hw2] at h; exact Option.noConfusion h
    | some p =>
      obtain ⟨st4, r4⟩ := p
      rw [hw2] at h
      simp only at h
      injection h with h2
      injection h2 with h3 h4
      rw [← h3, pm_steps_check_gc]
      exact pm_win_gc_nonneg _ _ _ _ _
        (pm_pickup_gc_nonneg _ (pm_monsters_gc_nonneg _ _
          (pm_move_gc_nonneg speed dx dy st))) hw2

theorem run_moves_gc_nonneg : ∀ (moves : List MoveCmd) (st st2 : GameState),
    0 ≤ st.gold_collected → run_moves moves st = some st2 →
    0 ≤ st2.gold_collected := by
  intro moves
  induction moves with
  | nil =>
    intro st st2 h0 h
    rw [run_moves] at h
    rw [← Option.some.inj h]
    exact h0
  | cons c cs ih =>
    intro st st2 h0 h
    rw [run_moves] at h
    cases hp : process_move c.fuel c.rng c.dx c.dy c.speed st with
    | none => rw [hp] at h; exact Option.noConfusion h
    | some p =>
      obtain ⟨st1, rr⟩ := p
      rw [hp] at h
      simp only at h
      exact ih st1 st2 (process_move_gc_nonneg _ _ _ _ _ _ _ _ h0 hp) h

/-- Under the constant-zero stream, every level-1 placement attempt
draws the same floor cell for start and exit, fails the distance check
after consuming exactly 48 draws, and retries: no fuel suffices. -/
theorem init_loop_c0_none : ∀ fuel, init_loop params1 fuel c0 = none := by
  intro fuel
  induction fuel with
  | zero => rfl
  | succ fuel ih =>
    have hstep : init_loop params1 (fuel + 1) c0 =
        init_loop params1 fuel ⟨fun _ => 0, 48⟩ := rfl
    rw [hstep]
    have hsl : SL (⟨fun _ => 0, 48⟩ : RNG) c0 := fun _ => rfl
    have hrel := init_loop_SL params1 fuel _ _ hsl
    rw [ih] at hrel
    cases hx : init_loop params1 fuel ⟨fun _ => 0, 48⟩ with
    | none => rfl
    | some p =>
      rw [hx] at hrel
      exact absurd hrel (by unfold ORel; simp)

theorem init_level_c0_none (fuel : Nat) : init_level fuel c0 1 = none := by
  have h : init_level fuel c0 1 = init_loop params1 fuel c0 := rfl
  rw [h]
  exact init_loop_c0_none fuel

/-- The walk loop of `move_if_possible` advances some number `k` of
whole steps in the direction `(dx, dy)`. -/
theorem mip_go_unit (dx dy : Int) : ∀ (steps : Nat) (m : Maze) (px py gold : Int),
    ∃ k : Nat, k ≤ steps ∧
      (mip_go dx dy steps m px py gold).1 = px + k * dx ∧
      (mip_go dx dy steps m px py gold).2.1 = py + k * dy := by
  intro steps
  induction steps with
  | zero =>
    intro m px py gold
    exact ⟨0, Nat.le_refl 0, by simp [mip_go], by simp [mip_go]⟩
  | succ steps ih =>
    intro m px py gold
    rw [mip_go]
    split
    · exact ⟨0, Nat.zero_le _, by simp, by simp⟩
    · split
      · obtain ⟨k, hk, h1, h2⟩ := ih (setCell m (px + dx) (py + dy) ' ')
          (px + dx) (py + dy) (gold + 1)
        refine ⟨k + 1, by omega, ?_, ?_⟩
        · rw [h1]
          push_cast
          ring
        · rw [h2]
          push_cast
          ring
      · obtain ⟨k, hk, h1, h2⟩ := ih m (px + dx) (py + dy) gold
        refine ⟨k + 1, by omega, ?_, ?_⟩
        · rw [h1]
          push_cast
          ring
        · rw [h2]
          push_cast
          ring

/-- CLAIM C4 (amended, `src/app.py`): for a unit-direction move the
player is displaced by `k` cells for some `k`, and the movement phase
charges `max(0, steps_left - cost)` with `cost = k` floored at `1` — a
fully blocked attempt (`k = 0`) costs exactly one step, and the counter
never becomes negative.  The variant `src/play_game_vibecoding.py`
deviates: see the counterexample on `Vibe.do_move`. -/
theorem pm_move_cost (speed dx dy : Int) (st : GameState)
    (hdir : (dx, dy) = ((1 : Int), (0 : Int)) ∨ (dx, dy) = (-1, 0) ∨
      (dx, dy) = (0, 1) ∨ (dx, dy) = (0, -1)) :
    ∃ k : Nat,
      (pm_move speed dx dy st).px = st.px + k * dx ∧
      (pm_move speed dx dy st).py = st.py + k * dy ∧
      (pm_move speed dx dy st).steps_left =
        max 0 (st.steps_left - (if k = 0 then 1 else (k : Int))) ∧
      0 ≤ (pm_move speed dx dy st).steps_left := by
  obtain ⟨k, hk, h1, h2⟩ := mip_go_unit dx dy (clamp (clamp speed 1 5) 1 10).toNat
    st.maze st.px st.py 0
  have hd : (((mip_go dx dy (clamp (clamp speed 1 5) 1 10).toNat
        st.maze st.px st.py 0).1 - st.px).natAbs +
      ((mip_go dx dy (clamp (clamp speed 1 5) 1 10).toNat
        st.maze st.px st.py 0).2.1 - st.py).natAbs) = k := by
    rw [h1, h2]
    rcases hdir with hq | hq | hq | hq <;>
      (injection hq with hx hy; subst hx; subst hy; simp)
  refine ⟨k, ?_, ?_, ?_, ?_⟩
  · unfold pm_move move_if_possible
    simp only
    exact h1
  · unfold pm_move move_if_possible
    simp only
    exact h2
  · unfold pm_move move_if_possible
    simp only
    rw [hd]
  · unfold pm_move move_if_possible
    simp only
    exact le_max_left 0 _

/-- Witness for `pm_move_cost` at a concrete state and direction. -/
theorem pm_move_cost_witness :
    ∃ k : Nat,
      (pm_move 1 1 0 st0).px = st0.px + k * 1 ∧
      (pm_move 1 1 0 st0).py = st0.py + k * 0 ∧
      (pm_move 1 1 0 st0).steps_left =
        max 0 (st0.steps_left - (if k = 0 then 1 else (k : Int))) ∧
      0 ≤ (pm_move 1 1 0 st0).steps_left :=
  pm_move_cost 1 1 0 st0 (Or.inl rfl)

/-- CLAIM C4 counterexample (`src/play_game_vibecoding.py` lines
222–242): in the variant, a live state with gold left and a move
attempt straight into a wall leaves the position unchanged and charges
nothing — `steps_left` stays at 10 instead of dropping to 9, against
the claim that a blocked attempt costs exactly one step. -/
theorem do_move_blocked_free :
    Vibe.vbState.game_over = false ∧
    Game.count_gold Vibe.vbState.maze ≠ 0 ∧
    (Vibe.do_move 1 0 Vibe.vbState).px = Vibe.vbState.px ∧
    (Vibe.do_move 1 0 Vibe.vbState).py = Vibe.vbState.py ∧
    (Vibe.do_move 1 0 Vibe.vbState).steps_left = Vibe.vbState.steps_left := by
  decide

/-- CLAIM C5: `gold_collected` starts at 0 on a freshly loaded level
and stays non-negative through every sequence of turns: the move and
monster-penalty updates clamp at 0 (`max(0, ...)`), pickup only
increments, and a level advance resets it to 0. -/
theorem gold_collected_nonneg (fuel : Nat) (r : RNG) (stA : GameState)
    (level : Nat) (stI : GameState) (rI : RNG) (moves : List MoveCmd)
    (stF : GameState) (hinit : load_level fuel r stA level = some (stI, rI))
    (hrun : run_moves moves stI = some stF) :
    stI.gold_collected = 0 ∧ 0 ≤ stF.gold_collected := by
  have h0 := load_level_gc_zero fuel r stA level stI rI hinit
  exact ⟨h0, run_moves_gc_nonneg moves stI stF (by omega) hrun⟩

/-- Witness for `gold_collected_nonneg` on the concrete level-1 load
from the `gW` stream. -/
theorem gold_collected_nonneg_witness :
    stW.gold_collected = 0 ∧ 0 ≤ stW.gold_collected :=
  gold_collected_nonneg 1 gW st0 1 stW stWrng [] stW rfl rfl

/-- CLAIM C6 counterexample: `init_level`'s `while True:` loop has no
retry cap and no farthest-cell fallback — the `attempt` counter is
incremented but never read.  Under the constant-zero stream every
level-1 attempt picks the same cell for start and exit, so the distance
check fails forever and initialization never terminates. -/
theorem init_level_no_retry_cap : ¬InitTerminates c0 1 := by
  rintro ⟨fuel, d, r1, h⟩
  rw [init_level_c0_none fuel] at h
  exact Option.noConfusion h

set_option maxRecDepth 100000 in
/-- CLAIM C6 (amended): whether `init_level` terminates depends on the
RNG stream.  A stream whose first attempt draws a far-away exit
succeeds within one attempt, while the constant-zero stream retries
forever — there is no bound valid for all streams. -/
theorem init_level_termination_stream_dependent :
    InitTerminates gW 1 ∧ ¬InitTerminates c0 1 := by
  constructor
  · have h : (init_level 1 gW 1).isSome = true := by decide
    obtain ⟨p, hp⟩ := Option.isSome_iff_exists.mp h
    exact ⟨1, p.1, p.2, by rw [hp]⟩
  · rintro ⟨fuel, d, r1, h⟩
    rw [init_level_c0_none fuel] at h
    exact Option.noConfusion h

/-- CLAIM C7: every state returned by `init_level` has distinct player
and exit positions, both passable, at Manhattan distance at least
`w // 2`, an exit cell that is not gold, and monsters away from the
player, the exit and all gold cells. -/
theorem init_level_placement (fuel : Nat) (r : RNG) (level : Nat)
    (d : LevelData) (r1 : RNG) (h : init_level fuel r level = some (d, r1)) :
    (d.px, d.py) ≠ d.exit_xy ∧
    floorAt d.maze (d.px, d.py) ∧
    floorAt d.maze d.exit_xy ∧
    (compute_level_params r level).1.w / 2 ≤ manhattan (d.px, d.py) d.exit_xy ∧
    cellAt d.maze d.exit_xy.1 d.exit_xy.2 ≠ 'G' ∧
    ∀ mp ∈ d.monsters, mp ≠ (d.px, d.py) ∧ mp ≠ d.exit_xy ∧
      cellAt d.maze mp.1 mp.2 ≠ 'G' := by
  have h2 : init_loop (compute_level_params r level).1 fuel
      (compute_level_params r level).2 = some (d, r1) := h
  have hpost := init_loop_post (compute_level_params r level).1
    (by have := compute_level_params_w_ge r level; omega) fuel
    (compute_level_params r level).2 d r1 h2
  exact ⟨hpost.2.1, hpost.2.2.1, hpost.2.2.2.1, hpost.2.2.2.2.1,
    hpost.2.2.2.2.2.1, hpost.2.2.2.2.2.2⟩

/-- Witness for `init_level_placement` on the concrete level-1 success
from the `gW` stream. -/
theorem init_level_placement_witness :
    (ldW.px, ldW.py) ≠ ldW.exit_xy ∧
    floorAt ldW.maze (ldW.px, ldW.py) ∧
    floorAt ldW.maze ldW.exit_xy ∧
    (compute_level_params gW 1).1.w / 2 ≤ manhattan (ldW.px, ldW.py) ldW.exit_xy ∧
    cellAt ldW.maze ldW.exit_xy.1 ldW.exit_xy.2 ≠ 'G' ∧
    ∀ mp ∈ ldW.monsters, mp ≠ (ldW.px, ldW.py) ∧ mp ≠ ldW.exit_xy ∧
      cellAt ldW.maze mp.1 mp.2 ≠ 'G' :=
  init_level_placement 1 gW 1 ldW ldWrng rfl

/-- CLAIM C8 counterexample: from the freshly initialized level-3 state
`stC8` (the `rC8` stream places the single monster next to the exit),
one player turn moves the monster onto the exit cell — `step_monsters`
never checks the exit, so "no monster occupies the exit" is placement
time only, not an invariant. -/
theorem monster_on_exit :
    (load_level 1 rC8 stBase3 3).isSome = true ∧
    stC8.exit_xy ∉ stC8.monsters ∧
    (process_move 1 c0 (-1) 0 1 stC8).isSome = true ∧
    stC8x.exit_xy ∈ stC8x.monsters := by
  refine ⟨by decide, by decide, by decide, by decide⟩

/-- CLAIM C8 (amended): what `step_monsters` does guarantee is that
every resulting monster position is an old monster position or a
passable cell; nothing excludes the exit cell. -/
theorem step_monsters_floor_or_stay (m : Maze) (monsters : List Pos)
    (px py : Int) (r : RNG) (q : Pos)
    (hq : q ∈ (step_monsters m monsters px py r).1.1) :
    q ∈ monsters ∨ floorAt m q :=
  step_monsters_spec m monsters px py r q hq

set_option maxRecDepth 100000 in
/-- Witness for `step_monsters_floor_or_stay` on the concrete level-3
state. -/
theorem step_monsters_floor_or_stay_witness :
    ((9 : Int), (1 : Int)) ∈ stC8.monsters ∨
      floorAt stC8.maze ((9 : Int), (1 : Int)) :=
  step_monsters_floor_or_stay stC8.maze stC8.monsters stC8.px stC8.py c0 (9, 1)
    (by decide)

/-- CLAIM C9: restarting from the all-levels-won terminal state does
reset the level to 1, rebuild a fresh level and clear `game_over`, but
`load_level` never clears `win_all`, so one terminal flag survives the
restart — the session immediately shows the win screen again instead
of level 1's active state. -/
theorem restart_game_keeps_win_all :
    (restart_game 1 gW stWin).isSome = true ∧
    ((restart_game 1 gW stWin).getD (st0, c0)).1.level = 1 ∧
    ((restart_game 1 gW stWin).getD (st0, c0)).1.game_over = false ∧
    ((restart_game 1 gW stWin).getD (st0, c0)).1.win_all = true := by
  refine ⟨by decide, by decide, by decide, by decide⟩

end App

namespace Game

theorem getD_cons_eraseIdx_perm {α : Type} (l : List α) (i : Nat) (a : α)
    (hi : i < l.length) : (l.getD i a :: l.eraseIdx i).Perm l := by
  rw [List.getD_eq_getElem?_getD, List.getElem?_eq_getElem hi, Option.getD_some]
  rw [List.eraseIdx_eq_take_drop_succ]
  have hsplit : l = l.take i ++ l[i] :: l.drop (i + 1) := by
    conv_lhs => rw [← List.take_append_drop i l]
    rw [List.drop_eq_getElem_cons hi]
  conv_rhs => rw [hsplit]
  exact List.perm_middle.symm

theorem rshuffleF_perm {α : Type} : ∀ (n : Nat) (r : RNG) (l : List α),
    ((rshuffleF n r l).1).Perm l := by
  intro n
  induction n with
  | zero =>
    intro r l
    cases l with
    | nil => exact List.Perm.refl _
    | cons a tl => exact List.Perm.refl _
  | succ n ih =>
    intro r l
    cases l with
    | nil => exact List.Perm.refl _
    | cons a tl =>
      rw [rshuffleF]
      simp only [RNG.next]
      refine List.Perm.trans (List.Perm.cons _ (ih _ _)) ?_
      exact getD_cons_eraseIdx_perm (a :: tl) _ a (Nat.mod_lt _ (by simp))

theorem rshuffle_perm {α : Type} (r : RNG) (l : List α) :
    ((rshuffle r l).1).Perm l :=
  rshuffleF_perm l.length r l

theorem cellAt_setCell_self {m : Maze} {x y : Int} (hc : cellAt m x y = ' ') :
    ∀ a b : Int, cellAt (setCell m x y ' ') a b = cellAt m a b := by
  intro a b
  rw [cellAt_setCell]
  split
  · next hcond => rw [hcond.1, hcond.2.1, hc]
  · rfl

end Game

namespace App

open Game

theorem carveInv_congr {w h : Nat} {s : Pos} {m m2 : Maze} {stack : List Pos}
    (hcell : ∀ a b : Int, cellAt m2 a b = cellAt m a b)
    (hlen : m2.length = m.length)
    (hhead : (m2.headD []).length = (m.headD []).length)
    (hrect : Rect m2 w h)
    (inv : CarveInv w h s m stack) : CarveInv w h s m2 stack := by
  have hfl : ∀ p : Pos, floorAt m2 p ↔ floorAt m p := by
    intro p
    unfold floorAt is_floor is_inside
    rw [hlen, hhead, hcell p.1 p.2]
  refine { rect := hrect, chars := fun a b => ?_, start_cell := inv.start_cell,
           start_floor := (hfl s).mpr inv.start_floor,
           floor_int := fun p hp => inv.floor_int p ((hfl p).mp hp),
           wall_iso := fun p hpo hpf q hadj => ?_,
           conn := fun p hp => ?_, uniq := ?_,
           stack_ok := fun p hp =>
             ⟨(inv.stack_ok p hp).1, (hfl p).mpr (inv.stack_ok p hp).2⟩,
           done_ok := fun p hpo hpf hps q hqo hman haxis =>
             (hfl q).mpr (inv.done_ok p hpo ((hfl p).mp hpf) hps q hqo hman haxis) }
  · rw [hcell a b]
    exact inv.chars a b
  · intro hq
    exact inv.wall_iso p hpo (fun hf => hpf ((hfl p).mpr hf)) q hadj ((hfl q).mp hq)
  · obtain ⟨l, hl⟩ := inv.conn p ((hfl p).mp hp)
    exact ⟨l, hl.mono (fun q hq => (hfl q).mpr hq)⟩
  · intro p q l1 l2 w1 hn1 w2 hn2
    exact inv.uniq p q l1 l2 (w1.mono fun a ha => (hfl a).mp ha) hn1
      (w2.mono fun a ha => (hfl a).mp ha) hn2

theorem carveInv_top_cell {w h : Nat} {s : Pos} {m : Maze} {x y : Int}
    {rest : List Pos} (inv : CarveInv w h s m ((x, y) :: rest)) :
    cellAt m x y = ' ' := by
  have hf := (inv.stack_ok (x, y) (List.mem_cons_self _ _)).2
  unfold floorAt is_floor at hf
  rw [Bool.and_eq_true, bne_iff_ne] at hf
  rcases inv.chars x y with hc | hc
  · exact absurd hc hf.2
  · exact hc

theorem carveInv_remark_top {w h : Nat} {s : Pos} {m : Maze} {x y : Int}
    {rest : List Pos} (inv : CarveInv w h s m ((x, y) :: rest)) :
    CarveInv w h s (setCell m x y ' ') ((x, y) :: rest) :=
  carveInv_congr (cellAt_setCell_self (carveInv_top_cell inv))
    (setCell_length m x y ' ') (setCell_headD_length m x y ' ')
    (rect_setCell inv.rect x y ' ') inv

theorem carveInv_carve_coords {w h : Nat} {s : Pos} {m0 : Maze} {x y : Int}
    {rest : List Pos} {c : Pos × Pos} {nx ny wx wy : Int}
    (inv : CarveInv w h s m0 ((x, y) :: rest))
    (hcm : c ∈ carve_nbrs m0 w h x y)
    (h1 : c.1 = (nx, ny)) (h3 : x + c.2.1 = wx) (h4 : y + c.2.2 = wy) :
    CarveInv w h s (setCell (setCell m0 wx wy ' ') nx ny ' ')
      ((nx, ny) :: (x, y) :: rest) := by
  have hstep := carveInv_carve inv hcm
  rw [h3, h4, h1] at hstep
  exact hstep

end App

namespace Vibe

open Game

theorem odd_down_mod {n : Nat} (hn : 3 ≤ n) : odd_down n % 2 = 1 := by
  unfold odd_down
  split <;> omega

theorem odd_down_ge3 {n : Nat} (hn : 3 ≤ n) : 3 ≤ odd_down n := by
  unfold odd_down
  split <;> omega

theorem carve_loop_inv_vibe {w h : Nat} {s : Pos} (hw : w % 2 = 1)
    (hh : h % 2 = 1) : ∀ (fuel : Nat) (r : RNG) (m : Maze) (x y : Int)
    (rest : List Pos) (g : Maze) (r1 : RNG),
    CarveInv w h s (setCell m x y ' ') ((x, y) :: rest) →
    carve_loop w h fuel r m ((x, y) :: rest) = some (g, r1) →
    CarveInv w h s g [] := by
  intro fuel
  induction fuel with
  | zero => intro r m x y rest g r1 _ hrun; exact Option.noConfusion hrun
  | succ fuel ih =>
    intro r m x y rest g r1 inv0 hrun
    rw [carve_loop] at hrun
    simp only at hrun
    cases hfind : (rshuffle r (neighbors_cells x y)).1.find?
        (fun n => in_bounds n.1 n.2 w h &&
          cellAt (setCell m x y ' ') n.1 n.2 == '#') with
    | none =>
      rw [hfind] at hrun
      simp only at hrun
      have hnb : App.carve_nbrs (setCell m x y ' ') w h x y = [] := by
        unfold App.carve_nbrs
        rw [List.filterMap_eq_nil_iff]
        intro d hd
        dsimp only
        by_cases hcond : (1 ≤ x + d.1 && x + d.1 < (w : Int) - 1 && 1 ≤ y + d.2
            && y + d.2 < (h : Int) - 1
            && cellAt (setCell m x y ' ') (x + d.1) (y + d.2) == '#') = true
        · exfalso
          have hmem2 : ((x + d.1, y + d.2) : Pos) ∈
              (rshuffle r (neighbors_cells x y)).1 := by
            rw [(rshuffle_perm r (neighbors_cells x y)).mem_iff]
            simp only [List.mem_cons, List.not_mem_nil, or_false] at hd
            unfold neighbors_cells
            rcases hd with rfl | rfl | rfl | rfl <;>
              simp [Prod.ext_iff] <;> omega
          have hfail := List.find?_eq_none.mp hfind _ hmem2
          apply hfail
          simp only [Bool.and_eq_true, decide_eq_true_eq, beq_iff_eq] at hcond
          obtain ⟨⟨⟨⟨hc1, hc2⟩, hc3⟩, hc4⟩, hc5⟩ := hcond
          simp only [Bool.and_eq_true, beq_iff_eq]
          refine ⟨?_, hc5⟩
          unfold in_bounds
          simp only [Bool.and_eq_true, decide_eq_true_eq]
          refine ⟨⟨⟨by omega, by omega⟩, by omega⟩, by omega⟩
        · rw [if_neg hcond]
      have invp := App.carveInv_pop inv0 hnb
      cases rest with
      | nil =>
        cases fuel with
        | zero => exact Option.noConfusion hrun
        | succ fuel2 =>
          rw [carve_loop] at hrun
          injection hrun with h2
          injection h2 with h3 h4
          exact h3 ▸ invp
      | cons q rest2 =>
        obtain ⟨qx, qy⟩ := q
        exact ih _ _ qx qy rest2 g r1 (App.carveInv_remark_top invp) hrun
    | some n =>
      rw [hfind] at hrun
      simp only at hrun
      have hmemn : n ∈ neighbors_cells x y :=
        rshuffle_subset _ _ n (List.mem_of_find?_eq_some hfind)
      have hpred := List.find?_some hfind
      rw [Bool.and_eq_true, beq_iff_eq] at hpred
      obtain ⟨hbnd, hwal⟩ := hpred
      unfold in_bounds at hbnd
      simp only [Bool.and_eq_true, decide_eq_true_eq] at hbnd
      obtain ⟨⟨⟨hb1, hb2⟩, hb3⟩, hb4⟩ := hbnd
      have hxy_odd := (inv0.stack_ok (x, y) (List.mem_cons_self _ _)).1
      unfold OddCell at hxy_odd
      dsimp only at hxy_odd
      obtain ⟨hox, hoy, hix1, hix2, hiy1, hiy2⟩ := hxy_odd
      unfold neighbors_cells at hmemn
      simp only [List.mem_cons, List.not_mem_nil, or_false] at hmemn
      rcases hmemn with rfl | rfl | rfl | rfl
      · dsimp only at hrun hwal hb1 hb2 hb3 hb4
        have hcm : (((x + 0, y + -2), ((0 : Int) / 2, (-2 : Int) / 2)) : Pos × Pos) ∈
            App.carve_nbrs (setCell m x y ' ') w h x y := by
          unfold App.carve_nbrs
          rw [List.mem_filterMap]
          refine ⟨(0, -2), by simp, ?_⟩
          dsimp only
          rw [if_pos ?_]
          simp only [Bool.and_eq_true, decide_eq_true_eq, beq_iff_eq]
          refine ⟨⟨⟨⟨by omega, by omega⟩, by omega⟩, by omega⟩, ?_⟩
          rw [show (x + (0 : Int)) = x from by omega,
            show (y + (-2 : Int)) = y - 2 from by omega]
          exact hwal
        have h1c : (((x + 0, y + -2), ((0 : Int) / 2, (-2 : Int) / 2)) :
            Pos × Pos).1 = (x, y - 2) := by
          dsimp only
          rw [Prod.mk.injEq]
          exact ⟨by omega, by omega⟩
        have h3c : x + (((x + 0, y + -2), ((0 : Int) / 2, (-2 : Int) / 2)) :
            Pos × Pos).2.1 = (x + x) / 2 := by
          dsimp only
          omega
        have h4c : y + (((x + 0, y + -2), ((0 : Int) / 2, (-2 : Int) / 2)) :
            Pos × Pos).2.2 = (y + (y - 2)) / 2 := by
          dsimp only
          omega
        have invC := App.carveInv_carve_coords inv0 hcm h1c h3c h4c
        exact ih _ _ x (y - 2) ((x, y) :: rest) g r1
          (App.carveInv_remark_top invC) hrun
      · dsimp only at hrun hwal hb1 hb2 hb3 hb4
        have hcm : (((x + 0, y + 2), ((0 : Int) / 2, (2 : Int) / 2)) : Pos × Pos) ∈
            App.carve_nbrs (setCell m x y ' ') w h x y := by
          unfold App.carve_nbrs
          rw [List.mem_filterMap]
          refine ⟨(0, 2), by simp, ?_⟩
          dsimp only
          rw [if_pos ?_]
          simp only [Bool.and_eq_true, decide_eq_true_eq, beq_iff_eq]
          refine ⟨⟨⟨⟨by omega, by omega⟩, by omega⟩, by omega⟩, ?_⟩
          rw [show (x + (0 : Int)) = x from by omega]
          exact hwal
        have h1c : (((x + 0, y + 2), ((0 : Int) / 2, (2 : Int) / 2)) :
            Pos × Pos).1 = (x, y + 2) := by
          dsimp only
          rw [Prod.mk.injEq]
          exact ⟨by omega, by omega⟩
        have h3c : x + (((x + 0, y + 2), ((0 : Int) / 2, (2 : Int) / 2)) :
            Pos × Pos).2.1 = (x + x) / 2 := by
          dsimp only
          omega
        have h4c : y + (((x + 0, y + 2), ((0 : Int) / 2, (2 : Int) / 2)) :
            Pos × Pos).2.2 = (y + (y + 2)) / 2 := by
          dsimp only
          omega
        have invC := App.carveInv_carve_coords inv0 hcm h1c h3c h4c
        exact ih _ _ x (y + 2) ((x, y) :: rest) g r1
          (App.carveInv_remark_top invC) hrun
      · dsimp only at hrun hwal hb1 hb2 hb3 hb4
        have hcm : (((x + -2, y + 0), ((-2 : Int) / 2, (0 : Int) / 2)) : Pos × Pos) ∈
            App.carve_nbrs (setCell m x y ' ') w h x y := by
          unfold App.carve_nbrs
          rw [List.mem_filterMap]
          refine ⟨(-2, 0), by simp, ?_⟩
          dsimp only
          rw [if_pos ?_]
          simp only [Bool.and_eq_true, decide_eq_true_eq, beq_iff_eq]
          refine ⟨⟨⟨⟨by omega, by omega⟩, by omega⟩, by omega⟩, ?_⟩
          rw [show (x + (-2 : Int)) = x - 2 from by omega,
            show (y + (0 : Int)) = y from by omega]
          exact hwal
        have h1c : (((x + -2, y + 0), ((-2 : Int) / 2, (0 : Int) / 2)) :
            Pos × Pos).1 = (x - 2, y) := by
          dsimp only
          rw [Prod.mk.injEq]
          exact ⟨by omega, by omega⟩
        have h3c : x + (((x + -2, y + 0), ((-2 : Int) / 2, (0 : Int) / 2)) :
            Pos × Pos).2.1 = (x + (x - 2)) / 2 := by
          dsimp only
          omega
        have h4c : y + (((x + -2, y + 0), ((-2 : Int) / 2, (0 : Int) / 2)) :
            Pos × Pos).2.2 = (y + y) / 2 := by
          dsimp only
          omega
        have invC := App.carveInv_carve_coords inv0 hcm h1c h3c h4c
        exact ih _ _ (x - 2) y ((x, y) :: rest) g r1
          (App.carveInv_remark_top invC) hrun
      · dsimp only at hrun hwal hb1 hb2 hb3 hb4
        have hcm : (((x + 2, y + 0), ((2 : Int) / 2, (0 : Int) / 2)) : Pos × Pos) ∈
            App.carve_nbrs (setCell m x y ' ') w h x y := by
          unfold App.carve_nbrs
          rw [List.mem_filterMap]
          refine ⟨(2, 0), by simp, ?_⟩
          dsimp only
          rw [if_pos ?_]
          simp only [Bool.and_eq_true, decide_eq_true_eq, beq_iff_eq]
          refine ⟨⟨⟨⟨by omega, by omega⟩, by omega⟩, by omega⟩, ?_⟩
          rw [show (y + (0 : Int)) = y from by omega]
          exact hwal
        have h1c : (((x + 2, y + 0), ((2 : Int) / 2, (0 : Int) / 2)) :
            Pos × Pos).1 = (x + 2, y) := by
          dsimp only
          rw [Prod.mk.injEq]
          exact ⟨by omega, by omega⟩
        have h3c : x + (((x + 2, y + 0), ((2 : Int) / 2, (0 : Int) / 2)) :
            Pos × Pos).2.1 = (x + (x + 2)) / 2 := by
          dsimp only
          omega
        have h4c : y + (((x + 2, y + 0), ((2 : Int) / 2, (0 : Int) / 2)) :
            Pos × Pos).2.2 = (y + y) / 2 := by
          dsimp only
          omega
        have invC := App.carveInv_carve_coords inv0 hcm h1c h3c h4c
        exact ih _ _ (x + 2) y ((x, y) :: rest) g r1
          (App.carveInv_remark_top invC) hrun

theorem make_maze_carveInv_vibe (r : RNG) (w0 h0 : Nat) (hw0 : 3 ≤ w0)
    (hh0 : 3 ≤ h0) (g : Maze) (r1 : RNG)
    (hg : make_maze r w0 h0 = some (g, r1)) :
    CarveInv (odd_down w0) (odd_down h0) (1, 1) g [] := by
  have hg2 : carve_loop (odd_down w0) (odd_down h0)
      (2 * (odd_down w0 * odd_down h0) + 2) r
      (List.replicate (odd_down h0) (List.replicate (odd_down w0) '#'))
      [(1, 1)] = some (g, r1) := hg
  have hw := odd_down_mod hw0
  have hh := odd_down_mod hh0
  have hw3 := odd_down_ge3 hw0
  have hh3 := odd_down_ge3 hh0
  have hstart : OddCell (odd_down w0) (odd_down h0) (1, 1) := by
    unfold OddCell
    refine ⟨by decide, by decide, by decide, by omega, by decide, by omega⟩
  exact carve_loop_inv_vibe hw hh _ r _ 1 1 [] g r1 (App.carveInv_init hstart) hg2

theorem move_if_possible_border_vibe {w h : Nat} (m : Maze) (px py dx dy : Int)
    (hm : Rect m w h) (hb : BorderWalls m w h) (hh0 : 0 < h)
    (hp : ¬OnBorder w h (px, py)) :
    ¬OnBorder w h ((move_if_possible m px py dx dy).1,
      (move_if_possible m px py dx dy).2.1) ∧
    BorderWalls (move_if_possible m px py dx dy).2.2.2 w h := by
  unfold move_if_possible
  simp only
  rw [hm.1, rect_head_length hm hh0]
  by_cases h1 : (!in_bounds (px + dx) (py + dy) w h) = true
  · rw [if_pos h1]
    exact ⟨hp, hb⟩
  · rw [if_neg h1]
    rw [Bool.not_eq_true, Bool.not_eq_false'] at h1
    unfold in_bounds at h1
    simp only [Bool.and_eq_true, decide_eq_true_eq] at h1
    obtain ⟨⟨⟨hq1, hq2⟩, hq3⟩, hq4⟩ := h1
    by_cases h2 : (cellAt m (px + dx) (py + dy) == '#') = true
    · rw [if_pos h2]
      exact ⟨hp, hb⟩
    · rw [if_neg h2]
      have hwall : cellAt m (px + dx) (py + dy) ≠ '#' := by
        intro he
        exact h2 (by rw [he]; exact beq_self_eq_true '#')
      have htb : ¬OnBorder w h (px + dx, py + dy) := by
        intro hob
        exact hwall (hb _ hq1 hq2 hq3 hq4 hob)
      by_cases h3 : (cellAt m (px + dx) (py + dy) == 'G') = true
      · rw [if_pos h3]
        exact ⟨htb, App.borderWalls_setCell hb htb ' '⟩
      · rw [if_neg h3]
        exact ⟨htb, hb⟩

end Vibe

/-- CLAIM C1: for both maze generators — `make_maze` in `src/app.py`
and `make_maze`/`carve_passage` in `src/play_game_vibecoding.py` — the
returned grid's floor spans the odd-coordinate cell lattice, every
floor cell is reachable from every other through floor cells, and
between any two cells there is exactly one simple (duplicate-free)
path. -/
theorem make_maze_spanning_tree (rA : Game.RNG) (wA hA : Nat) (gA : Game.Maze)
    (r1A : Game.RNG) (hgA : App.make_maze rA wA hA = some (gA, r1A))
    (rV : Game.RNG) (wV hV : Nat) (hwV : 3 ≤ wV) (hhV : 3 ≤ hV) (gV : Game.Maze)
    (r1V : Game.RNG) (hgV : Vibe.make_maze rV wV hV = some (gV, r1V)) :
    ((∀ p, Game.OddCell (Game.ensure_odd wA) (Game.ensure_odd hA) p →
       Game.floorAt gA p) ∧
     (∀ p q, Game.floorAt gA p → Game.floorAt gA q →
       ∃ l, Game.Walk gA p q l ∧ l.Nodup) ∧
     Game.UniquePath gA) ∧
    ((∀ p, Game.OddCell (Vibe.odd_down wV) (Vibe.odd_down hV) p →
       Game.floorAt gV p) ∧
     (∀ p q, Game.floorAt gV p → Game.floorAt gV q →
       ∃ l, Game.Walk gV p q l ∧ l.Nodup) ∧
     Game.UniquePath gV) := by
  constructor
  · obtain ⟨s0, inv⟩ := App.make_maze_carveInv rA wA hA gA r1A hgA
    refine ⟨?_, ?_, inv.uniq⟩
    · intro p hp
      exact App.carveInv_complete inv (Game.manhattan s0 p) p hp (le_refl _)
    · exact fun p q hp hq => App.carveInv_connect inv p q hp hq
  · have inv := Vibe.make_maze_carveInv_vibe rV wV hV hwV hhV gV r1V hgV
    refine ⟨?_, ?_, inv.uniq⟩
    · intro p hp
      exact App.carveInv_complete inv (Game.manhattan (1, 1) p) p hp (le_refl _)
    · exact fun p q hp hq => App.carveInv_connect inv p q hp hq

/-- Witness for `make_maze_spanning_tree`: the concrete 5 × 5 mazes of
both generators under the constant-0 stream. -/
theorem make_maze_spanning_tree_witness :
    ((∀ p, Game.OddCell (Game.ensure_odd 5) (Game.ensure_odd 5) p →
       Game.floorAt App.mazeTest p) ∧
     (∀ p q, Game.floorAt App.mazeTest p → Game.floorAt App.mazeTest q →
       ∃ l, Game.Walk App.mazeTest p q l ∧ l.Nodup) ∧
     Game.UniquePath App.mazeTest) ∧
    ((∀ p, Game.OddCell (Vibe.odd_down 5) (Vibe.odd_down 5) p →
       Game.floorAt Vibe.mazeTestV p) ∧
     (∀ p q, Game.floorAt Vibe.mazeTestV p → Game.floorAt Vibe.mazeTestV q →
       ∃ l, Game.Walk Vibe.mazeTestV p q l ∧ l.Nodup) ∧
     Game.UniquePath Vibe.mazeTestV) :=
  make_maze_spanning_tree Game.c0 5 5 App.mazeTest App.mazeTestRng rfl
    Game.c0 5 5 (by decide) (by decide) Vibe.mazeTestV Vibe.mazeTestVRng rfl

/-- CLAIM C10: every border cell of a maze from either generator is a
Wall (carving only opens interior cells), and in any rectangular maze
whose border is all walls, the move loop of `src/app.py`, the monster
step, and the single-step move of `src/play_game_vibecoding.py` all
keep player and monsters off the border row and column. -/
theorem make_maze_border (rA : Game.RNG) (wA hA : Nat) (gA : Game.Maze)
    (r1A : Game.RNG) (hgA : App.make_maze rA wA hA = some (gA, r1A))
    (rV : Game.RNG) (wV hV : Nat) (hwV : 3 ≤ wV) (hhV : 3 ≤ hV) (gV : Game.Maze)
    (r1V : Game.RNG) (hgV : Vibe.make_maze rV wV hV = some (gV, r1V)) :
    Game.BorderWalls gA (Game.ensure_odd wA) (Game.ensure_odd hA) ∧
    (∀ m : Game.Maze, Game.Rect m (Game.ensure_odd wA) (Game.ensure_odd hA) →
      Game.BorderWalls m (Game.ensure_odd wA) (Game.ensure_odd hA) →
      ∀ px py dx dy speed : Int,
        ¬Game.OnBorder (Game.ensure_odd wA) (Game.ensure_odd hA) (px, py) →
        ¬Game.OnBorder (Game.ensure_odd wA) (Game.ensure_odd hA)
          ((App.move_if_possible m px py dx dy speed).1,
           (App.move_if_possible m px py dx dy speed).2.1) ∧
        Game.BorderWalls (App.move_if_possible m px py dx dy speed).2.2.2
          (Game.ensure_odd wA) (Game.ensure_odd hA)) ∧
    (∀ (m : Game.Maze) (monsters : List Game.Pos) (px py : Int) (r2 : Game.RNG),
      Game.Rect m (Game.ensure_odd wA) (Game.ensure_odd hA) →
      Game.BorderWalls m (Game.ensure_odd wA) (Game.ensure_odd hA) →
      (∀ q ∈ monsters, ¬Game.OnBorder (Game.ensure_odd wA) (Game.ensure_odd hA) q) →
      ∀ q ∈ (App.step_monsters m monsters px py r2).1.1,
        ¬Game.OnBorder (Game.ensure_odd wA) (Game.ensure_odd hA) q) ∧
    Game.BorderWalls gV (Vibe.odd_down wV) (Vibe.odd_down hV) ∧
    (∀ m : Game.Maze, Game.Rect m (Vibe.odd_down wV) (Vibe.odd_down hV) →
      Game.BorderWalls m (Vibe.odd_down wV) (Vibe.odd_down hV) →
      ∀ px py dx dy : Int,
        ¬Game.OnBorder (Vibe.odd_down wV) (Vibe.odd_down hV) (px, py) →
        ¬Game.OnBorder (Vibe.odd_down wV) (Vibe.odd_down hV)
          ((Vibe.move_if_possible m px py dx dy).1,
           (Vibe.move_if_possible m px py dx dy).2.1) ∧
        Game.BorderWalls (Vibe.move_if_possible m px py dx dy).2.2.2
          (Vibe.odd_down wV) (Vibe.odd_down hV)) := by
  obtain ⟨s0, inv⟩ := App.make_maze_carveInv rA wA hA gA r1A hgA
  have hh0 : 0 < Game.ensure_odd hA := App.ensure_odd_pos hA
  have invV := Vibe.make_maze_carveInv_vibe rV wV hV hwV hhV gV r1V hgV
  have hh0V : 0 < Vibe.odd_down hV := by
    have := Vibe.odd_down_ge3 hhV
    omega
  refine ⟨App.carveInv_border inv, ?_, ?_, App.carveInv_border invV, ?_⟩
  · intro m hm2 hb px py dx dy speed hp
    exact ⟨(App.mip_go_border dx dy _ m px py 0 hm2 hb hp).1,
      (App.mip_go_border dx dy _ m px py 0 hm2 hb hp).2.2⟩
  · intro m monsters px py r2 hm hb hmon q hq
    rcases App.step_monsters_spec m monsters px py r2 q hq with hold | hfloor
    · exact hmon q hold
    · exact App.not_onBorder_of_floor hm hh0 hb hfloor
  · intro m hm hb px py dx dy hp
    exact Vibe.move_if_possible_border_vibe m px py dx dy hm hb hh0V hp

/-- Witness for `make_maze_border`: the concrete 5 × 5 mazes of both
generators under the constant-0 stream. -/
theorem make_maze_border_witness :
    Game.BorderWalls App.mazeTest (Game.ensure_odd 5) (Game.ensure_odd 5) ∧
    (∀ m : Game.Maze, Game.Rect m (Game.ensure_odd 5) (Game.ensure_odd 5) →
      Game.BorderWalls m (Game.ensure_odd 5) (Game.ensure_odd 5) →
      ∀ px py dx dy speed : Int,
        ¬Game.OnBorder (Game.ensure_odd 5) (Game.ensure_odd 5) (px, py) →
        ¬Game.OnBorder (Game.ensure_odd 5) (Game.ensure_odd 5)
          ((App.move_if_possible m px py dx dy speed).1,
           (App.move_if_possible m px py dx dy speed).2.1) ∧
        Game.BorderWalls (App.move_if_possible m px py dx dy speed).2.2.2
          (Game.ensure_odd 5) (Game.ensure_odd 5)) ∧
    (∀ (m : Game.Maze) (monsters : List Game.Pos) (px py : Int) (r2 : Game.RNG),
      Game.Rect m (Game.ensure_odd 5) (Game.ensure_odd 5) →
      Game.BorderWalls m (Game.ensure_odd 5) (Game.ensure_odd 5) →
      (∀ q ∈ monsters, ¬Game.OnBorder (Game.ensure_odd 5) (Game.ensure_odd 5) q) →
      ∀ q ∈ (App.step_monsters m monsters px py r2).1.1,
        ¬Game.OnBorder (Game.ensure_odd 5) (Game.ensure_odd 5) q) ∧
    Game.BorderWalls Vibe.mazeTestV (Vibe.odd_down 5) (Vibe.odd_down 5) ∧
    (∀ m : Game.Maze, Game.Rect m (Vibe.odd_down 5) (Vibe.odd_down 5) →
      Game.BorderWalls m (Vibe.odd_down 5) (Vibe.odd_down 5) →
      ∀ px py dx dy : Int,
        ¬Game.OnBorder (Vibe.odd_down 5) (Vibe.odd_down 5) (px, py) →
        ¬Game.OnBorder (Vibe.odd_down 5) (Vibe.odd_down 5)
          ((Vibe.move_if_possible m px py dx dy).1,
           (Vibe.move_if_possible m px py dx dy).2.1) ∧
        Game.BorderWalls (Vibe.move_if_possible m px py dx dy).2.2.2
          (Vibe.odd_down 5) (Vibe.odd_down 5)) :=
  make_maze_border Game.c0 5 5 App.mazeTest App.mazeTestRng rfl
    Game.c0 5 5 (by decide) (by decide) Vibe.mazeTestV Vibe.mazeTestVRng rfl
